import Mathlib

/-!
Verification of `pytorch_lightning/core/decorators.py` (weight-tying decorators).

We shallowly embed the module-tree data model and the five functions of the
source file:

* `parameter_validation` — wraps a `model_to_device` call, counting parameters
  before and after (and after the `on_post_move_to_device` hook), warning when
  the counts differ;
* `find_shared_parameters` — depth-first traversal collecting, per parameter
  identity, the ordered list of dotted paths referencing it; returns the
  lists of length > 1;
* `apply_weight_tying` — for each group, resolves the first path and rebinds
  every other path of the group to the resolved object;
* `_get_module_by_path` / `_set_module_by_path` — dotted-path attribute
  traversal;
* `auto_weight_tying` — wraps `model_to_device`, re-applying the sharing
  found before the move.

Modelling decisions (each mirrors documented behaviour of the surrounding
framework, which is outside this file):

* A module (`torch.nn.Module`) is a node with an insertion-ordered dict
  `_parameters : name → Optional[Parameter]` and an insertion-ordered dict
  `_modules : name → Optional[Module]`.  Parameters matter only through their
  identity (dict keying and `parameters()` deduplication use object identity,
  since tensor hashing is by id), so a parameter object is a `Nat` identity
  token.  Module children form a tree (each node owned by one parent), so the
  children dict is embedded structurally: `Children` is an ordered list of
  `(name, Optional[Module])` entries, written with two cons constructors to
  keep the mutual induction structural.
* `getattr` on a module (`nn.Module.__getattr__`) looks the name up in
  `_parameters` first, then `_modules`, returning the stored value even when
  it is `None`; an absent name raises `AttributeError`.
* `setattr` on a module (`nn.Module.__setattr__`) with a `Parameter` value
  removes the name from `_modules` and stores it in `_parameters` (existing
  key keeps its dict position, new key is appended); with a `Module` value it
  removes the name from `_parameters` and stores into `_modules`; with `None`
  it overwrites an existing `_parameters` or `_modules` entry, and otherwise
  touches nothing visible to the tree.
* Parameters are leaves of the tree model: attribute traversal that descends
  into a parameter or a `None` slot fails (`AttributeError`), and a terminal
  `setattr` on a parameter object does not change any tree slot.
* Exceptions are `Except` values; `rank_zero_warn` is modelled by returning
  the list of emitted warning messages.
-/

set_option autoImplicit false
set_option maxRecDepth 8000

namespace PLDecorators

/-- A parameter object, represented by its identity token (tensor hashing and
dict keying in the source are by object identity). -/
abbrev ParamId := Nat

mutual
/-- A `torch.nn.Module`: ordered `_parameters` dict (name to optional
parameter) and ordered `_modules` dict (name to optional child). -/
inductive MTree : Type where
  | node (params : List (String × Option ParamId)) (children : Children)
  deriving DecidableEq

/-- The `_modules` dict: an ordered list of entries whose value is either
`None` (`consNone`) or a child module (`consSome`). -/
inductive Children : Type where
  | nil
  | consNone (name : String) (rest : Children)
  | consSome (name : String) (child : MTree) (rest : Children)
  deriving DecidableEq
end

/-- The result of a Python attribute lookup on a module: `None`, a parameter,
or a child module. -/
inductive PyVal : Type where
  | none
  | par (i : ParamId)
  | mod (t : MTree)
  deriving DecidableEq

/-- A Python exception, as far as this file needs to distinguish them. -/
inductive PyErr : Type where
  | attributeError (name : String)
  | indexError
  | userError (msg : String)
  deriving DecidableEq

/-- First-match lookup in an ordered dict (`name in d` / `d[name]`); dict keys
are unique, so first match is the match. -/
def alookup {β : Type} : List (String × β) → String → Option β
  | [], _ => Option.none
  | (k, v) :: rest, n => if k = n then some v else alookup rest n

/-- `d[name] = v`: overwrite the existing entry in place, else append. -/
def aset {β : Type} : List (String × β) → String → β → List (String × β)
  | [], n, v => [(n, v)]
  | (k, w) :: rest, n, v =>
    if k = n then (k, v) :: rest else (k, w) :: aset rest n v

/-- `if name in d: del d[name]` (the `remove_from` helper of
`nn.Module.__setattr__`). -/
def aerase {β : Type} : List (String × β) → String → List (String × β)
  | [], _ => []
  | (k, w) :: rest, n => if k = n then rest else (k, w) :: aerase rest n

/-- First-match lookup in the `_modules` dict. -/
def clookup : Children → String → Option (Option MTree)
  | .nil, _ => Option.none
  | .consNone k rest, n => if k = n then some Option.none else clookup rest n
  | .consSome k m rest, n => if k = n then some (some m) else clookup rest n

/-- `_modules[name] = m`: overwrite in place, else append. -/
def cset : Children → String → MTree → Children
  | .nil, n, m => .consSome n m .nil
  | .consNone k rest, n, m =>
    if k = n then .consSome k m rest else .consNone k (cset rest n m)
  | .consSome k c rest, n, m =>
    if k = n then .consSome k m rest else .consSome k c (cset rest n m)

/-- `_modules[name] = None`: overwrite in place, else append. -/
def csetNone : Children → String → Children
  | .nil, n => .consNone n .nil
  | .consNone k rest, n =>
    if k = n then .consNone k rest else .consNone k (csetNone rest n)
  | .consSome k c rest, n =>
    if k = n then .consNone k rest else .consSome k c (csetNone rest n)

/-- `if name in _modules: del _modules[name]`. -/
def cerase : Children → String → Children
  | .nil, _ => .nil
  | .consNone k rest, n => if k = n then rest else .consNone k (cerase rest n)
  | .consSome k c rest, n =>
    if k = n then rest else .consSome k c (cerase rest n)

/-- `getattr(module, name)` via `nn.Module.__getattr__`: `_parameters` first,
then `_modules`; the stored value is returned even when it is `None`; an
absent name raises `AttributeError`. -/
def mtGetattr (t : MTree) (name : String) : Except PyErr PyVal :=
  match t with
  | .node ps cs =>
    match alookup ps name with
    | some (some i) => .ok (.par i)
    | some Option.none => .ok .none
    | Option.none =>
      match clookup cs name with
      | some (some m) => .ok (.mod m)
      | some Option.none => .ok .none
      | Option.none => .error (.attributeError name)

/-- `setattr(module, name, value)` via `nn.Module.__setattr__` (see the file
docstring for the three value cases). -/
def mtSetattr (t : MTree) (name : String) (v : PyVal) : MTree :=
  match t, v with
  | .node ps cs, .par i => .node (aset ps name (some i)) (cerase cs name)
  | .node ps cs, .mod m => .node (aerase ps name) (cset cs name m)
  | .node ps cs, .none =>
    match alookup ps name with
    | some _ => .node (aset ps name Option.none) cs
    | Option.none =>
      match clookup cs name with
      | some _ => .node ps (csetNone cs name)
      | Option.none => .node ps cs

/-- Python's `path.split(".")` on the underlying character list: `'.'` starts
a new segment, any other character is prepended to the current first
segment.  The result is always non-empty (`"".split(".") == [""]`). -/
def splitDotsAux : List Char → List (List Char)
  | [] => [[]]
  | c :: rest =>
    if c = '.' then [] :: splitDotsAux rest
    else
      match splitDotsAux rest with
      | [] => [[c]]
      | h :: t => (c :: h) :: t

/-- Python's `path.split(".")`. -/
def splitDots (s : String) : List String :=
  (splitDotsAux s.data).map (fun l => ⟨l⟩)

/-- `prefix + ("." if prefix else "") + name` from `find_shared_parameters`. -/
def joinName (pre name : String) : String :=
  pre ++ (if pre = "" then "" else ".") ++ name

/-- The `getattr` loop of `_get_module_by_path` over the split path, starting
from an already looked-up value.  Descending into a parameter or a `None`
slot raises `AttributeError` (parameters are leaves of the tree model, and
`getattr(None, n)` raises). -/
def getValPath : PyVal → List String → Except PyErr PyVal
  | v, [] => .ok v
  | .mod t, n :: rest =>
    match mtGetattr t n with
    | .error e => .error e
    | .ok v => getValPath v rest
  | .par _, n :: _ => .error (.attributeError n)
  | .none, n :: _ => .error (.attributeError n)

/-- `_get_module_by_path(module, path)`: split on `"."` and fold `getattr`. -/
def _get_module_by_path (t : MTree) (path : String) : Except PyErr PyVal :=
  getValPath (.mod t) (splitDots path)

/-- `_set_module_by_path` after the split: `getattr` along `path[:-1]`, then
`setattr` the final name.  A `getattr` on a parameter or `None` intermediate
raises; a terminal `setattr` on a parameter object (a tensor) succeeds but
changes no tree slot; a terminal `setattr` on `None` raises. -/
def setPathCore : MTree → List String → PyVal → Except PyErr MTree
  | _, [], _ => .error .indexError
  | t, [last], v => .ok (mtSetattr t last v)
  | .node ps cs, n :: next :: rest, v =>
    match mtGetattr (.node ps cs) n with
    | .error e => .error e
    | .ok (.mod child) =>
      match setPathCore child (next :: rest) v with
      | .error e => .error e
      | .ok child' => .ok (.node ps (cset cs n child'))
    | .ok (.par _) =>
      match rest with
      | [] => .ok (.node ps cs)
      | _ :: _ => .error (.attributeError next)
    | .ok .none => .error (.attributeError next)

/-- `_set_module_by_path(module, path, value)`. -/
def _set_module_by_path (t : MTree) (path : String) (v : PyVal) :
    Except PyErr MTree :=
  setPathCore t (splitDots path) v

/-- The `tied_parameters` dict: insertion-ordered map from parameter identity
to the list of dotted paths referencing it. -/
abbrev TiedMap := List (ParamId × List String)

/-- `if param not in tied_parameters: tied_parameters[param] = []` followed by
`tied_parameters[param].append(param_prefix)`. -/
def tmAdd : TiedMap → ParamId → String → TiedMap
  | [], k, p => [(k, [p])]
  | (k', ps) :: rest, k, p =>
    if k' = k then (k', ps ++ [p]) :: rest else (k', ps) :: tmAdd rest k p

/-- The `for name, param in module._parameters.items()` loop of
`find_shared_parameters` (skip `None`, record the joined path). -/
def fspParams : List (String × Option ParamId) → TiedMap → String → TiedMap
  | [], tm, _ => tm
  | (_, Option.none) :: rest, tm, pre => fspParams rest tm pre
  | (name, some i) :: rest, tm, pre =>
    fspParams rest (tmAdd tm i (joinName pre name)) pre

mutual
/-- The recursive body of `find_shared_parameters`: parameter slots of the
node first, then the `for name, m in module._modules.items()` loop (skip
`None` children), threading the `tied_parameters` dict. -/
def fspT : MTree → TiedMap → String → TiedMap
  | .node ps cs, tm, pre => fspC cs (fspParams ps tm pre) pre

/-- The `_modules` loop of `find_shared_parameters`. -/
def fspC : Children → TiedMap → String → TiedMap
  | .nil, tm, _ => tm
  | .consNone _ rest, tm, pre => fspC rest tm pre
  | .consSome name m rest, tm, pre =>
    fspC rest (fspT m tm (joinName pre name)) pre
end

/-- `find_shared_parameters(module)` (the outer, `first_call` invocation):
the dict values with more than one path, in dict order. -/
def find_shared_parameters (t : MTree) : List (List String) :=
  ((fspT t [] "").filter (fun kv => 1 < kv.2.length)).map (fun kv => kv.2)

/-- The `for path in shared_param[1:]` loop of `apply_weight_tying`. -/
def setGroup (t : MTree) (paths : List String) (ref : PyVal) :
    Except PyErr MTree :=
  match paths with
  | [] => .ok t
  | p :: rest =>
    match _set_module_by_path t p ref with
    | .error e => .error e
    | .ok t' => setGroup t' rest ref

/-- `apply_weight_tying(module, shared_params)`: per group, resolve the first
path and rebind every other path of the group to the resolved object; the
(mutated) module is returned. -/
def apply_weight_tying (t : MTree) (shared_params : List (List String)) :
    Except PyErr MTree :=
  match shared_params with
  | [] => .ok t
  | g :: rest =>
    match g with
    | [] => .error .indexError
    | p0 :: others =>
      match _get_module_by_path t p0 with
      | .error e => .error e
      | .ok ref =>
        match setGroup t others ref with
        | .error e => .error e
        | .ok t' => apply_weight_tying t' rest

/-- The `_parameters` pass of `module.parameters()` counting: skip `None`
slots and identities already in the memo, append new identities. -/
def paramsMemoP : List (String × Option ParamId) → List ParamId → List ParamId
  | [], memo => memo
  | (_, Option.none) :: rest, memo => paramsMemoP rest memo
  | (_, some i) :: rest, memo =>
    paramsMemoP rest (if i ∈ memo then memo else memo ++ [i])

mutual
/-- `module.parameters()` as `len(list(...))` observes it: the depth-first
member enumeration of `nn.Module._named_members`, skipping `None` slots and
already-seen identities (the `memo` set); the accumulator is the memo in
first-visit order. -/
def paramsMemoT : MTree → List ParamId → List ParamId
  | .node ps cs, memo => paramsMemoC cs (paramsMemoP ps memo)

/-- The child pass of the `parameters()` enumeration. -/
def paramsMemoC : Children → List ParamId → List ParamId
  | .nil, memo => memo
  | .consNone _ rest, memo => paramsMemoC rest memo
  | .consSome _ m rest, memo => paramsMemoC rest (paramsMemoT m memo)
end

/-- `len(list(self.model.parameters()))`. -/
def paramCount (t : MTree) : Nat :=
  (paramsMemoT t []).length

/-- The `rank_zero_warn` message of `parameter_validation` (Python adjacent
string literals and the f-string concatenate into one string). -/
def mismatchWarning (pre post : Nat) : String :=
  "The model layers do not match after moving to the target device." ++
    " If your model employs weight sharing on TPU," ++
    " please tie your weights using the `on_post_move_to_device` model hook.\n" ++
    "Layer count: [Before: " ++ toString pre ++ " After: " ++ toString post ++ "]"

/-- `parameter_validation(fn)` applied to a state.  The wrapped method only
touches `self` through `self.model`, so the state is the model tree; `fn`
(the `model_to_device` method) may mutate it, raise, and return a value;
`on_post_move_to_device` is the model-supplied hook (modelled from the spec:
a tree transformer owned by the model, a no-op by default).  The wrapper's
`rank_zero_warn` emissions are returned as a message list. -/
def parameter_validation {R : Type} (fn : MTree → Except PyErr (MTree × R))
    (hook : MTree → MTree) (model : MTree) :
    Except PyErr (MTree × R × List String) :=
  let pre_layer_count := paramCount model
  match fn model with
  | .error e => .error e
  | .ok (moved, module) =>
    let hooked := hook moved
    let post_layer_count := paramCount hooked
    if pre_layer_count = post_layer_count then .ok (hooked, module, [])
    else
      .ok (hooked, module,
        [mismatchWarning pre_layer_count post_layer_count])

/-- `auto_weight_tying(model_to_device)` applied to a state.  `self.model` is
the bare module (`LightningDistributedModule`, defined outside this file, is
absent here, so the unwrapping line is the identity branch).  The wrapper
returns `module`, the re-tied model; the value `model_to_device` returned is
not captured. -/
def auto_weight_tying {R : Type}
    (model_to_device : MTree → Except PyErr (MTree × R)) (model : MTree) :
    Except PyErr (MTree × MTree) :=
  let shared_params := find_shared_parameters model
  match model_to_device model with
  | .error e => .error e
  | .ok (moved, _ret) =>
    match apply_weight_tying moved shared_params with
    | .error e => .error e
    | .ok module => .ok (module, module)

/-! ### Specification-side definitions (for the refinement claim) and
well-formedness / shape predicates used as hypotheses. -/

/-- The parameter-slot pass of the spec-side walk. -/
def collectP : List (String × Option ParamId) → String → List (ParamId × String)
  | [], _ => []
  | (_, Option.none) :: rest, pre => collectP rest pre
  | (name, some i) :: rest, pre => (i, joinName pre name) :: collectP rest pre

mutual
/-- Spec-side walk: the depth-first sequence of `(identity, dotted path)`
pairs over all non-empty parameter slots — a node's own slots in declared
order, then its children in declared order, skipping empty slots and absent
children. -/
def collectT : MTree → String → List (ParamId × String)
  | .node ps cs, pre => collectP ps pre ++ collectC cs pre

/-- The child pass of the spec-side walk. -/
def collectC : Children → String → List (ParamId × String)
  | .nil, _ => []
  | .consNone _ rest, pre => collectC rest pre
  | .consSome name m rest, pre =>
    collectT m (joinName pre name) ++ collectC rest pre
end

/-- First-occurrence deduplication (Python dict key order). -/
def dedupFirst (l : List ParamId) : List ParamId :=
  l.foldl (fun acc k => if k ∈ acc then acc else acc ++ [k]) []

/-- The tie-group extraction as the specification words it: group the walked
pairs by identity, groups ordered by first occurrence, each group the
ordered list of paths referencing that identity; keep groups of at least two
paths. -/
def specTieGroups (t : MTree) : List (List String) :=
  let pairs := collectT t ""
  ((dedupFirst (pairs.map (fun q => q.1))).map
      (fun k => (pairs.filter (fun q => q.1 = k)).map (fun q => q.2))).filter
    (fun g => 2 ≤ g.length)

/-- The dict built by inserting a pair list in order (proof artifact: the
`tied_parameters` dict is this fold of the walked pairs). -/
def gather (L : List (ParamId × String)) : TiedMap :=
  L.foldl (fun tm q => tmAdd tm q.1 q.2) []

/-- Joining a name list under a prefix, one `joinName` at a time (the way
`find_shared_parameters` builds dotted paths along the recursion). -/
def joinUnder (pre : String) : List String → String
  | [] => pre
  | n :: rest => joinUnder (joinName pre n) rest

/-- The name-list (undotted) variant of the spec-side walk, used to reason
about path resolution. -/
def collectNP : List (String × Option ParamId) → List (List String × ParamId)
  | [] => []
  | (_, Option.none) :: rest => collectNP rest
  | (name, some i) :: rest => ([name], i) :: collectNP rest

mutual
/-- Name-list walk of a tree: each non-empty slot contributes its name path
(as a list) and its identity, in the traversal order of `collectT`. -/
def collectNT : MTree → List (List String × ParamId)
  | .node ps cs => collectNP ps ++ collectNC cs

/-- The child pass of the name-list walk. -/
def collectNC : Children → List (List String × ParamId)
  | .nil => []
  | .consNone _ rest => collectNC rest
  | .consSome name m rest =>
    (collectNT m).map (fun q => (name :: q.1, q.2)) ++ collectNC rest
end

/-- Attribute names are nonempty and dot-free (`register_parameter` and
`add_module` both reject empty names and names containing a dot). -/
def goodName (s : String) : Bool :=
  (s != "") && s.data.all (fun c => c != '.')

/-- The keys of a `_parameters` dict. -/
def pNames (ps : List (String × Option ParamId)) : List String :=
  ps.map (fun q => q.1)

/-- The keys of a `_modules` dict. -/
def cNames : Children → List String
  | .nil => []
  | .consNone n rest => n :: cNames rest
  | .consSome n _ rest => n :: cNames rest

/-- Boolean key-uniqueness. -/
def nodupB : List String → Bool
  | [] => true
  | n :: rest => !(rest.contains n) && nodupB rest

/-- Boolean key-disjointness. -/
def disjointB (xs ys : List String) : Bool :=
  xs.all (fun x => !(ys.contains x))

mutual
/-- Well-formedness guaranteed by `nn.Module` attribute registration: per
node, parameter keys are unique, child keys are unique, no name is both a
parameter and a child, and every name is nonempty and dot-free. -/
def WfT : MTree → Bool
  | .node ps cs =>
    nodupB (pNames ps) && nodupB (cNames cs)
      && disjointB (pNames ps) (cNames cs)
      && (pNames ps).all goodName && (cNames cs).all goodName && WfC cs

/-- Well-formedness of a children dict. -/
def WfC : Children → Bool
  | .nil => true
  | .consNone _ rest => WfC rest
  | .consSome _ m rest => WfT m && WfC rest
end

/-- Pointwise shape equality of `_parameters` dicts: same keys in the same
order, `None`-ness preserved (identities may differ). -/
def sameShapeP : List (String × Option ParamId) → List (String × Option ParamId) → Bool
  | [], [] => true
  | (n, o) :: r, (n', o') :: r' =>
    (n == n') && (o.isSome == o'.isSome) && sameShapeP r r'
  | _, _ => false

mutual
/-- Tree-shape stability across a device move: same slot names in the same
order everywhere, `None`-ness preserved, parameter identities free to
change. -/
def sameShapeT : MTree → MTree → Bool
  | .node ps cs, .node ps' cs' => sameShapeP ps ps' && sameShapeC cs cs'

/-- Shape stability of children dicts. -/
def sameShapeC : Children → Children → Bool
  | .nil, .nil => true
  | .consNone n r, .consNone n' r' => (n == n') && sameShapeC r r'
  | .consSome n m r, .consSome n' m' r' =>
    (n == n') && sameShapeT m m' && sameShapeC r r'
  | _, _ => false
end

deriving instance DecidableEq for Except

/-- The returned value of a wrapped `model_to_device` call, when it did not
raise. -/
def returnedOf : Except PyErr (MTree × MTree) → Option MTree
  | .ok q => some q.2
  | .error _ => Option.none

/-! ### Concrete example models used by witnesses and counterexamples. -/

/-- A model where `a.weight` and `c.weight` reference parameter object 7 and
`b.weight` references object 8 (the spec's tie-group example). -/
def exShared : MTree :=
  .node [] (.consSome "a" (.node [("weight", some 7)] .nil)
    (.consSome "b" (.node [("weight", some 8)] .nil)
      (.consSome "c" (.node [("weight", some 7)] .nil) .nil)))

/-- `exShared` after a device move that replaced every parameter object with
a fresh distinct one (21, 22, 23): all aliasing broken, shape unchanged. -/
def exSharedMoved : MTree :=
  .node [] (.consSome "a" (.node [("weight", some 21)] .nil)
    (.consSome "b" (.node [("weight", some 22)] .nil)
      (.consSome "c" (.node [("weight", some 23)] .nil) .nil)))

/-- A device move sending `exShared` to `exSharedMoved` and returning 5. -/
def exMove (_ : MTree) : Except PyErr (MTree × Nat) :=
  .ok (exSharedMoved, 5)

/-- A one-parameter model with no sharing. -/
def exSingle : MTree := .node [("w", some 0)] .nil

/-- A distinguishable value for a `model_to_device` return. -/
def exRetVal : MTree := .node [] (.consNone "marker" .nil)

/-- A move that leaves the model alone and returns `exRetVal`. -/
def exMoveRet (t : MTree) : Except PyErr (MTree × MTree) :=
  .ok (t, exRetVal)

/-- A move that raises. -/
def exMoveFail (_ : MTree) : Except PyErr (MTree × Unit) :=
  .error (.userError "device move failed")

/-- A move that leaves the model alone and returns 0. -/
def exMoveKeep (t : MTree) : Except PyErr (MTree × Nat) :=
  .ok (t, 0)

/-- A post-move hook that unties `b.weight` by giving it a fresh object 9
(turning 2 distinct identities into 3), used to trigger the count guard. -/
def exUntieHook (t : MTree) : MTree :=
  match _set_module_by_path t "b.weight" (.par 9) with
  | .ok t' => t'
  | .error _ => t

/-- A model with a tied pair whose second path, after the move, lacks its
final name: `a.w` and `b.w` reference 3, but the moved tree's `b` has no
`w` slot. -/
def exBroken : MTree :=
  .node [] (.consSome "a" (.node [("w", some 3)] .nil)
    (.consSome "b" (.node [("w", some 3)] .nil) .nil))

/-- `exBroken` after a move that also dropped the `b.w` slot. -/
def exBrokenMoved : MTree :=
  .node [] (.consSome "a" (.node [("w", some 31)] .nil)
    (.consSome "b" (.node [] .nil) .nil))

/-! ## Theorems -/

/-- C4: for every successful invocation of the callable produced by
`parameter_validation`, a diagnostic is emitted iff the parameter count
taken before the move differs from the count taken after the move and the
post-move hook; the diagnostic names both literal counts; at most one
diagnostic is emitted; and the result of `model_to_device` is returned
unchanged regardless of mismatch. -/
theorem parameter_validation_count_guard {R : Type}
    (fn : MTree → Except PyErr (MTree × R)) (hook : MTree → MTree)
    (m m' : MTree) (r : R) (h : fn m = .ok (m', r)) :
    ∃ warns : List String,
      parameter_validation fn hook m = .ok (hook m', r, warns) ∧
      (warns ≠ [] ↔ paramCount m ≠ paramCount (hook m')) ∧
      warns.length ≤ 1 ∧
      ∀ w ∈ warns, ∃ s1 s2 : String,
        w = s1 ++ ("Before: " ++ toString (paramCount m) ++ " After: " ++
          toString (paramCount (hook m'))) ++ s2 := by
  by_cases hc : paramCount m = paramCount (hook m')
  · refine ⟨[], ?_, ?_, ?_, ?_⟩
    · simp [parameter_validation, h, hc]
    · simp [hc]
    · simp
    · simp
  · refine ⟨[mismatchWarning (paramCount m) (paramCount (hook m'))], ?_, ?_, ?_, ?_⟩
    · simp [parameter_validation, h, hc]
    · simp [hc]
    · simp
    · intro w hw
      simp only [List.mem_singleton] at hw
      subst hw
      refine ⟨"The model layers do not match after moving to the target device." ++
        " If your model employs weight sharing on TPU," ++
        " please tie your weights using the `on_post_move_to_device` model hook.\n" ++
        "Layer count: [", "]", ?_⟩
      have hsplit : ("Layer count: [Before: " : String).data =
          ("Layer count: [" : String).data ++ ("Before: " : String).data := rfl
      apply String.ext
      simp [mismatchWarning, String.data_append, List.append_assoc, hsplit]

/-- C4 witness: `exShared` has 2 distinct parameter objects; the move breaks
the tie (3 objects) and the `exUntieHook` keeps them untied (3 objects), so
exactly one warning naming 2 and 3 is emitted and the moved return value 5
passes through. -/
theorem parameter_validation_count_guard_witness :
    ∃ warns : List String,
      parameter_validation exMove id exShared = .ok (id exSharedMoved, 5, warns) ∧
      (warns ≠ [] ↔ paramCount exShared ≠ paramCount (id exSharedMoved)) ∧
      warns.length ≤ 1 ∧
      ∀ w ∈ warns, ∃ s1 s2 : String,
        w = s1 ++ ("Before: " ++ toString (paramCount exShared) ++ " After: " ++
          toString (paramCount (id exSharedMoved))) ++ s2 :=
  parameter_validation_count_guard exMove id exShared exSharedMoved 5 rfl

/-- C5: when the underlying `model_to_device` raises, both wrapped callables
propagate the error unmodified; the count guard emits no diagnostic (there
is no warning component in the propagated error) and the tie tracker never
reaches its rebinding step. -/
theorem wrappers_propagate_move_error {R : Type}
    (fn : MTree → Except PyErr (MTree × R)) (hook : MTree → MTree)
    (m : MTree) (e : PyErr) (h : fn m = .error e) :
    parameter_validation fn hook m = .error e ∧
    auto_weight_tying fn m = .error e := by
  constructor
  · simp [parameter_validation, h]
  · simp [auto_weight_tying, h]

/-- C5 witness: a failing move through both wrappers on `exShared`. -/
theorem wrappers_propagate_move_error_witness :
    parameter_validation exMoveFail id exShared = .error (.userError "device move failed") ∧
    auto_weight_tying exMoveFail exShared = .error (.userError "device move failed") :=
  wrappers_propagate_move_error exMoveFail id exShared (.userError "device move failed") rfl

/-- C3 counterexample: the claim says the callable produced by
`auto_weight_tying` returns the result captured from the wrapped
`model_to_device` call.  With a move that returns `exRetVal` and leaves
`exSingle` unchanged, the wrapper returns `exSingle` (the model), not
`exRetVal`: the captured result is discarded. -/
theorem auto_weight_tying_c3_counterexample :
    exMoveRet exSingle = .ok (exSingle, exRetVal) ∧
    returnedOf (auto_weight_tying exMoveRet exSingle) = some exSingle ∧
    returnedOf (auto_weight_tying exMoveRet exSingle) ≠ some exRetVal := by
  refine ⟨rfl, rfl, ?_⟩
  decide

/-- C3 (amended): the callable produced by `auto_weight_tying` discards the
value returned by the wrapped `model_to_device` call and instead returns the
(unwrapped, re-tied) model module; rebinding is a side effect on the model,
which is also what the callable returns. -/
theorem auto_weight_tying_returns_module {R : Type}
    (mtd : MTree → Except PyErr (MTree × R)) (m m' res : MTree) (r : R)
    (hmove : mtd m = .ok (m', r))
    (happly : apply_weight_tying m' (find_shared_parameters m) = .ok res) :
    auto_weight_tying mtd m = .ok (res, res) := by
  simp [auto_weight_tying, hmove, happly]

/-- C3 (amended) witness: the wrapper on `exSingle` with the `exRetVal`-returning
move returns the model itself. -/
theorem auto_weight_tying_returns_module_witness :
    auto_weight_tying exMoveRet exSingle = .ok (exSingle, exSingle) :=
  auto_weight_tying_returns_module exMoveRet exSingle exSingle exSingle exRetVal rfl (by decide)

/-- C8: `find_shared_parameters` is deterministic — on equal model
definitions it produces equal group sequences, hence equal first paths. -/
theorem find_shared_parameters_deterministic (m1 m2 : MTree) (h : m1 = m2) :
    find_shared_parameters m1 = find_shared_parameters m2 ∧
    (find_shared_parameters m1).map List.head? =
      (find_shared_parameters m2).map List.head? := by
  subst h
  exact ⟨rfl, rfl⟩

/-- C8 witness: two runs on `exShared`. -/
theorem find_shared_parameters_deterministic_witness :
    find_shared_parameters exShared = find_shared_parameters exShared ∧
    (find_shared_parameters exShared).map List.head? =
      (find_shared_parameters exShared).map List.head? :=
  find_shared_parameters_deterministic exShared exShared rfl

/-! ### The insertion-ordered dict, characterized by first-occurrence key
order and per-key path filtering. -/

theorem mem_foldl_dedup (L : List ParamId) (acc : List ParamId) (x : ParamId) :
    x ∈ L.foldl (fun a k => if k ∈ a then a else a ++ [k]) acc ↔
      x ∈ acc ∨ x ∈ L := by
  induction L generalizing acc with
  | nil => simp
  | cons k0 rest ih =>
    by_cases hk : k0 ∈ acc
    · simp only [List.foldl_cons, if_pos hk, ih, List.mem_cons]
      constructor
      · rintro (h | h)
        · exact Or.inl h
        · exact Or.inr (Or.inr h)
      · rintro (h | h | h)
        · exact Or.inl h
        · exact Or.inl (h ▸ hk)
        · exact Or.inr h
    · simp only [List.foldl_cons, if_neg hk, ih, List.mem_append,
        List.mem_singleton, List.mem_cons]
      tauto

theorem nodup_foldl_dedup (L : List ParamId) (acc : List ParamId)
    (h : acc.Nodup) :
    (L.foldl (fun a k => if k ∈ a then a else a ++ [k]) acc).Nodup := by
  induction L generalizing acc with
  | nil => simpa using h
  | cons k0 rest ih =>
    by_cases hk : k0 ∈ acc
    · simpa only [List.foldl_cons, if_pos hk] using ih acc h
    · refine ih _ ?_
      simp [List.nodup_append, h, hk]

theorem mem_dedupFirst (L : List ParamId) (x : ParamId) :
    x ∈ dedupFirst L ↔ x ∈ L := by
  simpa [dedupFirst] using mem_foldl_dedup L [] x

theorem nodup_dedupFirst (L : List ParamId) : (dedupFirst L).Nodup :=
  nodup_foldl_dedup L [] List.nodup_nil

theorem dedupFirst_concat (L : List ParamId) (k : ParamId) :
    dedupFirst (L ++ [k]) =
      if k ∈ L then dedupFirst L else dedupFirst L ++ [k] := by
  have h : dedupFirst (L ++ [k]) =
      if k ∈ dedupFirst L then dedupFirst L else dedupFirst L ++ [k] := by
    simp only [dedupFirst, List.foldl_append, List.foldl_cons, List.foldl_nil]
  rw [h]
  by_cases hk : k ∈ L
  · simp [(mem_dedupFirst L k).2 hk, hk]
  · have h2 : k ∉ dedupFirst L := fun h' => hk ((mem_dedupFirst L k).1 h')
    simp [h2, hk]

theorem tmAdd_of_not_mem (tm : TiedMap) (k : ParamId) (p : String)
    (h : k ∉ tm.map (fun kv => kv.1)) :
    tmAdd tm k p = tm ++ [(k, [p])] := by
  induction tm with
  | nil => rfl
  | cons kv rest ih =>
    simp only [List.map_cons, List.mem_cons] at h
    push_neg at h
    simp [tmAdd, Ne.symm h.1, ih h.2]

theorem map_if_fst_not_mem {β : Type} (l : List (ParamId × β)) (k : ParamId)
    (f : ParamId × β → ParamId × β) (h : k ∉ l.map (fun kv => kv.1)) :
    l.map (fun kv => if kv.1 = k then f kv else kv) = l := by
  induction l with
  | nil => rfl
  | cons kv rest ih =>
    simp only [List.map_cons, List.mem_cons] at h
    push_neg at h
    simp [Ne.symm h.1, ih h.2]

theorem tmAdd_of_mem_nodup (tm : TiedMap) (k : ParamId) (p : String)
    (hn : (tm.map (fun kv => kv.1)).Nodup) (h : k ∈ tm.map (fun kv => kv.1)) :
    tmAdd tm k p =
      tm.map (fun kv => if kv.1 = k then (kv.1, kv.2 ++ [p]) else kv) := by
  induction tm with
  | nil => simp at h
  | cons kv rest ih =>
    simp only [List.map_cons, List.nodup_cons] at hn
    simp only [List.map_cons, List.mem_cons] at h
    by_cases hk : kv.1 = k
    · have hrest : k ∉ rest.map (fun kv => kv.1) := hk ▸ hn.1
      rw [show kv = (kv.1, kv.2) from rfl]
      simp [tmAdd, hk, map_if_fst_not_mem rest k _ hrest]
    · rcases h with h | h
      · exact absurd h.symm hk
      · rw [show kv = (kv.1, kv.2) from rfl]
        simp [tmAdd, hk, ih hn.2 h]

theorem filter_fst_eq_nil (L : List (ParamId × String)) (k : ParamId)
    (h : k ∉ L.map (fun q => q.1)) :
    L.filter (fun q => q.1 = k) = [] := by
  induction L with
  | nil => rfl
  | cons q rest ih =>
    simp only [List.map_cons, List.mem_cons] at h
    push_neg at h
    simp [List.filter_cons, Ne.symm h.1, ih h.2]

theorem gather_eq (L : List (ParamId × String)) :
    gather L = (dedupFirst (L.map (fun q => q.1))).map
      (fun k => (k, (L.filter (fun q => q.1 = k)).map (fun q => q.2))) := by
  induction L using List.reverseRecOn with
  | nil => rfl
  | append_singleton L x ih =>
    obtain ⟨k0, p0⟩ := x
    have hstep : gather (L ++ [(k0, p0)]) = tmAdd (gather L) k0 p0 := by
      simp [gather, List.foldl_append]
    have hids : (L ++ [(k0, p0)]).map (fun q => q.1) =
        L.map (fun q => q.1) ++ [k0] := by
      simp
    have hkeys : (gather L).map (fun kv => kv.1) =
        dedupFirst (L.map (fun q => q.1)) := by
      rw [ih, List.map_map]
      simp [Function.comp_def]
    have hfil : ∀ k, (L ++ [(k0, p0)]).filter (fun q => q.1 = k) =
        L.filter (fun q => q.1 = k) ++ if k0 = k then [(k0, p0)] else [] := by
      intro k
      rw [List.filter_append]
      by_cases h : k0 = k <;> simp [List.filter_cons, h]
    rw [hstep, hids, dedupFirst_concat]
    by_cases hx : k0 ∈ L.map (fun q => q.1)
    · have hnd : ((gather L).map (fun kv => kv.1)).Nodup := by
        rw [hkeys]
        exact nodup_dedupFirst _
      have hmem : k0 ∈ (gather L).map (fun kv => kv.1) := by
        rw [hkeys]
        exact (mem_dedupFirst _ _).2 hx
      rw [if_pos hx, tmAdd_of_mem_nodup _ _ _ hnd hmem, ih, List.map_map]
      apply List.map_congr_left
      intro k hk
      simp only [Function.comp_apply]
      rw [hfil k]
      by_cases hkx : k = k0
      · subst hkx
        simp
      · rw [if_neg (by simpa using hkx), if_neg (fun h => hkx h.symm)]
        simp
    · have hnm : k0 ∉ (gather L).map (fun kv => kv.1) := by
        rw [hkeys]
        exact fun h => hx ((mem_dedupFirst _ _).1 h)
      rw [if_neg hx, tmAdd_of_not_mem _ _ _ hnm, ih, List.map_append]
      congr 1
      · apply List.map_congr_left
        intro k hk
        have hkL : k ∈ L.map (fun q => q.1) := (mem_dedupFirst _ _).1 hk
        have hkx : k ≠ k0 := fun h => hx (h ▸ hkL)
        rw [hfil k, if_neg (fun h => hkx h.symm)]
        simp
      · simp only [List.map_cons, List.map_nil]
        rw [hfil k0, if_pos rfl, filter_fst_eq_nil L k0 hx]
        simp

/-! ### `find_shared_parameters` computes the dict of the spec-side walk. -/

theorem fspParams_eq (ps : List (String × Option ParamId)) (tm : TiedMap)
    (pre : String) :
    fspParams ps tm pre =
      (collectP ps pre).foldl (fun a q => tmAdd a q.1 q.2) tm := by
  induction ps generalizing tm with
  | nil => rfl
  | cons q rest ih =>
    match q with
    | (name, Option.none) => simp [fspParams, collectP, ih]
    | (name, some i) => simp [fspParams, collectP, ih]

mutual
theorem fspT_eq (t : MTree) (tm : TiedMap) (pre : String) :
    fspT t tm pre = (collectT t pre).foldl (fun a q => tmAdd a q.1 q.2) tm :=
  match t with
  | .node ps cs => by
    rw [fspT, collectT, List.foldl_append, fspC_eq, fspParams_eq]

theorem fspC_eq (cs : Children) (tm : TiedMap) (pre : String) :
    fspC cs tm pre = (collectC cs pre).foldl (fun a q => tmAdd a q.1 q.2) tm :=
  match cs with
  | .nil => rfl
  | .consNone _ rest => by
    rw [fspC, collectC, fspC_eq]
  | .consSome name m rest => by
    rw [fspC, collectC, List.foldl_append, fspC_eq, fspT_eq]
end

theorem fsp_root_eq_gather (t : MTree) :
    fspT t [] "" = gather (collectT t "") := by
  rw [fspT_eq]
  rfl

theorem find_shared_eq_specGroups (t : MTree) :
    find_shared_parameters t = specTieGroups t := by
  rw [find_shared_parameters, fsp_root_eq_gather, gather_eq, specTieGroups]
  rw [List.filter_map, List.filter_map]
  rw [List.map_map]
  congr 1

/-- C2: `find_shared_parameters` returns exactly the identity groups of size
at least 2 of the depth-first walk — each group the ordered paths of one
identity in traversal order, groups ordered by first occurrence. -/
theorem find_shared_parameters_spec (t : MTree) :
    find_shared_parameters t = specTieGroups t :=
  find_shared_eq_specGroups t

theorem filter_fst_len_le_one (L : List (ParamId × String))
    (h : (L.map (fun q => q.1)).Nodup) (k : ParamId) :
    (L.filter (fun q => q.1 = k)).length ≤ 1 := by
  induction L with
  | nil => simp
  | cons q rest ih =>
    simp only [List.map_cons, List.nodup_cons] at h
    by_cases hk : q.1 = k
    · subst hk
      rw [List.filter_cons, if_pos (by simp)]
      rw [filter_fst_eq_nil rest q.1 h.1]
      simp
    · rw [List.filter_cons, if_neg (by simpa using hk)]
      exact ih h.2

/-- C7: a model in which no parameter object is referenced by more than one
path produces zero tie-groups, and the wrapped callable performs no slot
rebinding — the post-move model is returned exactly as the move left it. -/
theorem no_aliasing_no_rebinding {R : Type}
    (t : MTree) (mtd : MTree → Except PyErr (MTree × R)) (m' : MTree) (r : R)
    (hali : ((collectT t "").map (fun q => q.1)).Nodup)
    (hmove : mtd t = .ok (m', r)) :
    find_shared_parameters t = [] ∧
    auto_weight_tying mtd t = .ok (m', m') := by
  have hempty : find_shared_parameters t = [] := by
    rw [find_shared_parameters, fsp_root_eq_gather]
    have hfil : (gather (collectT t "")).filter (fun kv => 1 < kv.2.length) = [] := by
      rw [List.filter_eq_nil_iff]
      intro kv hkv
      rw [gather_eq] at hkv
      obtain ⟨k, _, rfl⟩ := List.mem_map.1 hkv
      have hle := filter_fst_len_le_one _ hali k
      simp only [List.length_map, decide_eq_true_eq]
      omega
    rw [hfil]
    rfl
  refine ⟨hempty, ?_⟩
  simp [auto_weight_tying, hmove, hempty, apply_weight_tying]

/-- C7 witness: `exSharedMoved` has three distinct parameter objects; the
identity move passes through untouched. -/
theorem no_aliasing_no_rebinding_witness :
    find_shared_parameters exSharedMoved = [] ∧
    auto_weight_tying exMoveKeep exSharedMoved = .ok (exSharedMoved, exSharedMoved) :=
  no_aliasing_no_rebinding exSharedMoved exMoveKeep exSharedMoved 0 (by decide) rfl

/-! ### Splitting on dots inverts joining of nonempty dot-free names. -/

theorem splitDotsAux_ne_nil (l : List Char) : splitDotsAux l ≠ [] := by
  induction l with
  | nil => simp [splitDotsAux]
  | cons c rest ih =>
    rw [splitDotsAux]
    by_cases hc : c = '.'
    · simp [hc]
    · rw [if_neg hc]
      cases h : splitDotsAux rest with
      | nil => simp
      | cons a b => simp

theorem splitDotsAux_append (xs ys : List Char) :
    splitDotsAux (xs ++ '.' :: ys) = splitDotsAux xs ++ splitDotsAux ys := by
  induction xs with
  | nil => simp [splitDotsAux]
  | cons c rest ih =>
    by_cases hc : c = '.'
    · subst hc
      have h1 : splitDotsAux ('.' :: (rest ++ '.' :: ys)) =
          [] :: splitDotsAux (rest ++ '.' :: ys) := by
        rw [splitDotsAux, if_pos rfl]
      have h2 : splitDotsAux ('.' :: rest) = [] :: splitDotsAux rest := by
        rw [splitDotsAux, if_pos rfl]
      rw [List.cons_append, h1, ih, h2]
      rfl
    · have h1 : splitDotsAux (c :: (rest ++ '.' :: ys)) =
          match splitDotsAux (rest ++ '.' :: ys) with
          | [] => [[c]]
          | h :: t => (c :: h) :: t := by
        rw [splitDotsAux, if_neg hc]
      have h2 : splitDotsAux (c :: rest) =
          match splitDotsAux rest with
          | [] => [[c]]
          | h :: t => (c :: h) :: t := by
        rw [splitDotsAux, if_neg hc]
      rw [List.cons_append, h1, ih, h2]
      cases h : splitDotsAux rest with
      | nil => exact absurd h (splitDotsAux_ne_nil rest)
      | cons a b => simp

theorem splitDotsAux_dotfree (l : List Char) (hne : l ≠ [])
    (hd : ∀ c ∈ l, c ≠ '.') : splitDotsAux l = [l] := by
  induction l with
  | nil => contradiction
  | cons c rest ih =>
    rw [splitDotsAux, if_neg (hd c (by simp))]
    cases hr : rest with
    | nil => simp [splitDotsAux]
    | cons a b =>
      rw [← hr, ih (by simp [hr]) (fun x hx => hd x (List.mem_cons_of_mem _ hx))]

theorem goodName_parts (n : String) (h : goodName n = true) :
    n.data ≠ [] ∧ ∀ c ∈ n.data, c ≠ '.' := by
  simp only [goodName, Bool.and_eq_true, bne_iff_ne, List.all_eq_true,
    decide_eq_true_eq] at h
  refine ⟨?_, fun c hc => by simpa using h.2 c hc⟩
  intro hd
  exact h.1 (String.ext hd)

theorem splitDots_good (n : String) (h : goodName n = true) :
    splitDots n = [n] := by
  obtain ⟨h1, h2⟩ := goodName_parts n h
  rw [splitDots, splitDotsAux_dotfree n.data h1 h2]
  rfl

theorem data_joinName (p n : String) (hp : p ≠ "") :
    (joinName p n).data = p.data ++ '.' :: n.data := by
  have hdot : ("." : String).data = ['.'] := rfl
  simp [joinName, hp, String.data_append, hdot]

theorem splitDots_joinName (p n : String) (hp : p ≠ "") (hn : goodName n = true) :
    splitDots (joinName p n) = splitDots p ++ [n] := by
  obtain ⟨h1, h2⟩ := goodName_parts n hn
  rw [splitDots, data_joinName p n hp, splitDotsAux_append, List.map_append]
  rw [splitDotsAux_dotfree n.data h1 h2]
  rfl

theorem joinName_empty (n : String) : joinName "" n = n := by
  apply String.ext
  simp [joinName, String.data_append]

theorem joinName_ne_empty (p n : String) (hn : goodName n = true) :
    joinName p n ≠ "" := by
  obtain ⟨h1, _⟩ := goodName_parts n hn
  intro h
  have hd := congrArg String.data h
  by_cases hp : p = ""
  · rw [hp, joinName_empty] at h
    exact h1 (congrArg String.data h)
  · rw [data_joinName p n hp] at hd
    simp at hd

theorem splitDots_joinUnder (nl : List String)
    (hgood : ∀ n ∈ nl, goodName n = true) :
    ∀ p, p ≠ "" → splitDots (joinUnder p nl) = splitDots p ++ nl := by
  induction nl with
  | nil => simp [joinUnder]
  | cons n rest ih =>
    intro p hp
    have hn : goodName n = true := hgood n (by simp)
    rw [joinUnder]
    rw [ih (fun m hm => hgood m (List.mem_cons_of_mem _ hm)) _
      (joinName_ne_empty p n hn)]
    rw [splitDots_joinName p n hp hn]
    simp

theorem splitDots_joinUnder_root (nl : List String) (hne : nl ≠ [])
    (hgood : ∀ n ∈ nl, goodName n = true) :
    splitDots (joinUnder "" nl) = nl := by
  cases nl with
  | nil => contradiction
  | cons n rest =>
    have hn : goodName n = true := hgood n (by simp)
    rw [joinUnder, joinName_empty]
    by_cases hr : rest = []
    · subst hr
      simpa [joinUnder] using splitDots_good n hn
    · rw [splitDots_joinUnder rest (fun m hm => hgood m (List.mem_cons_of_mem _ hm))
        n (fun h => (goodName_parts n hn).1 (congrArg String.data h))]
      rw [splitDots_good n hn]
      rfl

/-! ### Dict lookup facts under key uniqueness. -/

theorem nodupB_iff (l : List String) : nodupB l = true ↔ l.Nodup := by
  induction l with
  | nil => simp [nodupB]
  | cons n rest ih => simp [nodupB, ih, List.nodup_cons]

theorem disjointB_iff (xs ys : List String) :
    disjointB xs ys = true ↔ ∀ x ∈ xs, x ∉ ys := by
  simp [disjointB]

theorem mem_pNames (ps : List (String × Option ParamId)) (n : String)
    (v : Option ParamId) (h : (n, v) ∈ ps) : n ∈ pNames ps :=
  List.mem_map.2 ⟨(n, v), h, rfl⟩

theorem alookup_of_nodup (ps : List (String × Option ParamId)) (n : String)
    (v : Option ParamId) (hnd : (pNames ps).Nodup) (h : (n, v) ∈ ps) :
    alookup ps n = some v := by
  induction ps with
  | nil => simp at h
  | cons q rest ih =>
    obtain ⟨k, w⟩ := q
    simp only [pNames, List.map_cons, List.nodup_cons] at hnd
    rcases List.mem_cons.1 h with h1 | h1
    · obtain ⟨rfl, rfl⟩ := Prod.mk.injEq .. ▸ h1
      injection h1 with h2 h3
      simp [alookup]
    · have hk : k ≠ n := fun he => hnd.1 (he ▸ mem_pNames rest n v h1)
      simpa [alookup, hk] using ih hnd.2 h1

theorem alookup_eq_none (ps : List (String × Option ParamId)) (n : String)
    (h : n ∉ pNames ps) : alookup ps n = Option.none := by
  induction ps with
  | nil => rfl
  | cons q rest ih =>
    obtain ⟨k, w⟩ := q
    simp only [pNames, List.map_cons, List.mem_cons] at h
    push_neg at h
    simpa [alookup, Ne.symm h.1] using ih h.2

theorem clookup_some_mem_cNames (cs : Children) (n : String) (x : Option MTree)
    (h : clookup cs n = some x) : n ∈ cNames cs :=
  match cs with
  | .nil => by simp [clookup] at h
  | .consNone k rest => by
    rw [clookup] at h
    by_cases hk : k = n
    · simp [cNames, hk]
    · rw [if_neg hk] at h
      simp [cNames, clookup_some_mem_cNames rest n x h]
  | .consSome k m rest => by
    rw [clookup] at h
    by_cases hk : k = n
    · simp [cNames, hk]
    · rw [if_neg hk] at h
      simp [cNames, clookup_some_mem_cNames rest n x h]

/-! ### The spec walk, related to the name-list walk. -/

theorem collectP_eq_N (ps : List (String × Option ParamId)) (pre : String) :
    collectP ps pre = (collectNP ps).map (fun q => (q.2, joinUnder pre q.1)) := by
  induction ps with
  | nil => rfl
  | cons q rest ih =>
    match q with
    | (name, Option.none) => simp [collectP, collectNP, ih]
    | (name, some i) => simp [collectP, collectNP, ih, joinUnder]

mutual
theorem collectT_eq_N (t : MTree) (pre : String) :
    collectT t pre = (collectNT t).map (fun q => (q.2, joinUnder pre q.1)) :=
  match t with
  | .node ps cs => by
    rw [collectT, collectNT, List.map_append, collectC_eq_N, collectP_eq_N]

theorem collectC_eq_N (cs : Children) (pre : String) :
    collectC cs pre = (collectNC cs).map (fun q => (q.2, joinUnder pre q.1)) :=
  match cs with
  | .nil => rfl
  | .consNone name rest => by
    rw [collectC, collectNC, collectC_eq_N]
  | .consSome name m rest => by
    rw [collectC, collectNC, List.map_append, collectC_eq_N, collectT_eq_N]
    congr 1
    rw [List.map_map]
    apply List.map_congr_left
    intro q _
    simp [joinUnder]
end

theorem collectNP_mem (ps : List (String × Option ParamId)) (nl : List String)
    (i : ParamId) (h : (nl, i) ∈ collectNP ps) :
    ∃ name, nl = [name] ∧ (name, some i) ∈ ps := by
  induction ps with
  | nil => simp [collectNP] at h
  | cons q rest ih =>
    match q with
    | (name, Option.none) =>
      rw [collectNP] at h
      obtain ⟨name', h1, h2⟩ := ih h
      exact ⟨name', h1, List.mem_cons_of_mem _ h2⟩
    | (name, some j) =>
      rw [collectNP] at h
      rcases List.mem_cons.1 h with h1 | h1
      · injection h1 with h2 h3
        exact ⟨name, h2, h3 ▸ List.mem_cons_self _ _⟩
      · obtain ⟨name', h2, h3⟩ := ih h1
        exact ⟨name', h2, List.mem_cons_of_mem _ h3⟩

mutual
theorem collectNT_ne_nil (t : MTree) (nl : List String) (i : ParamId)
    (h : (nl, i) ∈ collectNT t) : nl ≠ [] :=
  match t with
  | .node ps cs => by
    rw [collectNT] at h
    rcases List.mem_append.1 h with h1 | h1
    · obtain ⟨name, rfl, _⟩ := collectNP_mem ps nl i h1
      simp
    · obtain ⟨name, nl', rfl, _, _⟩ := collectNC_shape cs nl i h1
      simp

theorem collectNC_shape (cs : Children) (nl : List String) (i : ParamId)
    (h : (nl, i) ∈ collectNC cs) :
    ∃ name nl', nl = name :: nl' ∧ nl' ≠ [] ∧ name ∈ cNames cs :=
  match cs with
  | .nil => by simp [collectNC] at h
  | .consNone name rest => by
    rw [collectNC] at h
    obtain ⟨name', nl', h1, h2, h3⟩ := collectNC_shape rest nl i h
    exact ⟨name', nl', h1, h2, by simp [cNames, h3]⟩
  | .consSome name m rest => by
    rw [collectNC] at h
    rcases List.mem_append.1 h with h1 | h1
    · obtain ⟨⟨ql, qi⟩, hq, h2⟩ := List.mem_map.1 h1
      injection h2 with h3 h4
      exact ⟨name, ql, h3.symm, collectNT_ne_nil m ql qi hq, by simp [cNames]⟩
    · obtain ⟨name', nl', h2, h3, h4⟩ := collectNC_shape rest nl i h1
      exact ⟨name', nl', h2, h3, by simp [cNames, h4]⟩
end

mutual
theorem collectNT_good (t : MTree) (ht : WfT t = true) (nl : List String)
    (i : ParamId) (h : (nl, i) ∈ collectNT t) :
    ∀ n ∈ nl, goodName n = true :=
  match t with
  | .node ps cs => by
    rw [collectNT] at h
    rw [WfT] at ht
    simp only [Bool.and_eq_true] at ht
    obtain ⟨⟨⟨⟨⟨hpn, hcn⟩, hdis⟩, hpg⟩, hcg⟩, hwc⟩ := ht
    rcases List.mem_append.1 h with h1 | h1
    · obtain ⟨name, rfl, hmem⟩ := collectNP_mem ps nl i h1
      intro n hn
      rw [List.mem_singleton] at hn
      subst hn
      exact (List.all_eq_true.1 hpg) n (mem_pNames ps n (some i) hmem)
    · exact collectNC_good cs hwc hcg nl i h1

theorem collectNC_good (cs : Children) (hc : WfC cs = true)
    (hg : (cNames cs).all goodName = true) (nl : List String) (i : ParamId)
    (h : (nl, i) ∈ collectNC cs) : ∀ n ∈ nl, goodName n = true :=
  match cs with
  | .nil => by simp [collectNC] at h
  | .consNone name rest => by
    rw [collectNC] at h
    rw [cNames] at hg
    simp only [List.all_cons, Bool.and_eq_true] at hg
    exact collectNC_good rest (by rwa [WfC] at hc) hg.2 nl i h
  | .consSome name m rest => by
    rw [collectNC] at h
    rw [cNames] at hg
    simp only [List.all_cons, Bool.and_eq_true] at hg
    rw [WfC] at hc
    simp only [Bool.and_eq_true] at hc
    rcases List.mem_append.1 h with h1 | h1
    · obtain ⟨⟨ql, qi⟩, hq, h2⟩ := List.mem_map.1 h1
      injection h2 with h3 h4
      subst h3
      intro n hn
      rcases List.mem_cons.1 hn with h5 | h5
      · exact h5 ▸ hg.1
      · exact collectNT_good m hc.1 ql qi hq n h5
    · exact collectNC_good rest hc.2 hg.2 nl i h1
end

mutual
theorem getValPath_collectNT (t : MTree) (ht : WfT t = true) (nl : List String)
    (i : ParamId) (h : (nl, i) ∈ collectNT t) :
    getValPath (.mod t) nl = .ok (.par i) :=
  match t with
  | .node ps cs => by
    rw [collectNT] at h
    rw [WfT] at ht
    simp only [Bool.and_eq_true] at ht
    obtain ⟨⟨⟨⟨⟨hpn, hcn⟩, hdis⟩, hpg⟩, hcg⟩, hwc⟩ := ht
    rcases List.mem_append.1 h with h1 | h1
    · obtain ⟨name, rfl, hmem⟩ := collectNP_mem ps nl i h1
      have hl : alookup ps name = some (some i) :=
        alookup_of_nodup ps name (some i) ((nodupB_iff _).1 hpn) hmem
      rw [getValPath, mtGetattr, hl]
      rfl
    · obtain ⟨name, m, nl', rfl, hcl, hrec⟩ :=
        getValPath_collectNC cs hwc hcn nl i h1
      have hl : alookup ps name = Option.none := alookup_eq_none ps name (by
        intro hmem
        exact ((disjointB_iff _ _).1 hdis name hmem)
          (clookup_some_mem_cNames cs name (some m) hcl))
      rw [getValPath, mtGetattr, hl, hcl]
      exact hrec

theorem getValPath_collectNC (cs : Children) (hc : WfC cs = true)
    (hnd : nodupB (cNames cs) = true) (nl : List String) (i : ParamId)
    (h : (nl, i) ∈ collectNC cs) :
    ∃ name m nl', nl = name :: nl' ∧ clookup cs name = some (some m) ∧
      getValPath (.mod m) nl' = .ok (.par i) :=
  match cs with
  | .nil => by simp [collectNC] at h
  | .consNone name rest => by
    rw [collectNC] at h
    rw [cNames] at hnd
    rw [nodupB] at hnd
    simp only [Bool.and_eq_true, Bool.not_eq_true'] at hnd
    obtain ⟨name', m, nl', h1, h2, h3⟩ :=
      getValPath_collectNC rest (by rwa [WfC] at hc) hnd.2 nl i h
    have hne : name ≠ name' := by
      intro he
      have hmem := clookup_some_mem_cNames rest name' (some m) h2
      rw [← he] at hmem
      have hcont : (cNames rest).contains name = true := List.elem_iff.2 hmem
      rw [hnd.1] at hcont
      exact Bool.false_ne_true hcont
    exact ⟨name', m, nl', h1, by rw [clookup, if_neg hne]; exact h2, h3⟩
  | .consSome name m rest => by
    rw [collectNC] at h
    rw [cNames] at hnd
    rw [nodupB] at hnd
    simp only [Bool.and_eq_true, Bool.not_eq_true'] at hnd
    rw [WfC] at hc
    simp only [Bool.and_eq_true] at hc
    rcases List.mem_append.1 h with h1 | h1
    · obtain ⟨⟨ql, qi⟩, hq, h2⟩ := List.mem_map.1 h1
      injection h2 with h3 h4
      refine ⟨name, m, ql, h3.symm, by rw [clookup, if_pos rfl], ?_⟩
      rw [← h4]
      exact getValPath_collectNT m hc.1 ql qi hq
    · obtain ⟨name', m', nl', h2, h3, h4⟩ :=
        getValPath_collectNC rest hc.2 hnd.2 nl i h1
      have hne : name ≠ name' := by
        intro he
        have hmem := clookup_some_mem_cNames rest name' (some m') h3
        rw [← he] at hmem
        have hcont : (cNames rest).contains name = true := List.elem_iff.2 hmem
        rw [hnd.1] at hcont
        exact Bool.false_ne_true hcont
      exact ⟨name', m', nl', h2, by rw [clookup, if_neg hne]; exact h3, h4⟩
end

/-! ### The walked paths are pairwise distinct on well-formed trees. -/

theorem collectNP_nodup (ps : List (String × Option ParamId))
    (h : (pNames ps).Nodup) : ((collectNP ps).map (fun q => q.1)).Nodup := by
  induction ps with
  | nil => simp [collectNP]
  | cons q rest ih =>
    match q with
    | (name, Option.none) =>
      rw [collectNP]
      simp only [pNames, List.map_cons, List.nodup_cons] at h
      exact ih h.2
    | (name, some i) =>
      rw [collectNP]
      simp only [pNames, List.map_cons, List.nodup_cons] at h
      rw [List.map_cons, List.nodup_cons]
      refine ⟨?_, ih h.2⟩
      intro hmem
      obtain ⟨⟨ql, qi⟩, hq, h2⟩ := List.mem_map.1 hmem
      obtain ⟨name', h3, h4⟩ := collectNP_mem rest ql qi hq
      rw [h3] at h2
      injection h2 with h5 _
      exact h.1 (h5 ▸ mem_pNames rest name' (some qi) h4)

mutual
theorem collectNT_nodup (t : MTree) (ht : WfT t = true) :
    ((collectNT t).map (fun q => q.1)).Nodup :=
  match t with
  | .node ps cs => by
    have ht' := ht
    rw [WfT] at ht'
    simp only [Bool.and_eq_true] at ht'
    obtain ⟨⟨⟨⟨⟨hpn, hcn⟩, hdis⟩, hpg⟩, hcg⟩, hwc⟩ := ht'
    rw [collectNT, List.map_append, List.nodup_append]
    refine ⟨collectNP_nodup ps ((nodupB_iff _).1 hpn),
      collectNC_nodup cs hwc hcn, ?_⟩
    intro a ha hb
    obtain ⟨⟨ql, qi⟩, hq, h2⟩ := List.mem_map.1 ha
    obtain ⟨name, h3, _⟩ := collectNP_mem ps ql qi hq
    obtain ⟨⟨rl, ri⟩, hr, h4⟩ := List.mem_map.1 hb
    obtain ⟨name', nl', h5, h6, _⟩ := collectNC_shape cs rl ri hr
    rw [h3] at h2
    rw [h5] at h4
    rw [← h2] at h4
    cases nl' with
    | nil => exact h6 rfl
    | cons a b => simp at h4

theorem collectNC_nodup (cs : Children) (hc : WfC cs = true)
    (hnd : nodupB (cNames cs) = true) :
    ((collectNC cs).map (fun q => q.1)).Nodup :=
  match cs with
  | .nil => by simp [collectNC]
  | .consNone name rest => by
    rw [collectNC]
    rw [cNames, nodupB] at hnd
    simp only [Bool.and_eq_true, Bool.not_eq_true'] at hnd
    exact collectNC_nodup rest (by rwa [WfC] at hc) hnd.2
  | .consSome name m rest => by
    rw [cNames, nodupB] at hnd
    simp only [Bool.and_eq_true, Bool.not_eq_true'] at hnd
    rw [WfC] at hc
    simp only [Bool.and_eq_true] at hc
    have hnmem : name ∉ cNames rest := by
      simpa using hnd.1
    rw [collectNC, List.map_append, List.nodup_append]
    refine ⟨?_, collectNC_nodup rest hc.2 hnd.2, ?_⟩
    · rw [List.map_map]
      have hcomp : ((fun q : List String × ParamId => q.1) ∘
          (fun q : List String × ParamId => (name :: q.1, q.2))) =
          (List.cons name) ∘ (fun q : List String × ParamId => q.1) := rfl
      rw [hcomp, ← List.map_map]
      exact List.Nodup.map (fun x y hxy => by simpa using hxy)
        (collectNT_nodup m hc.1)
    · intro a ha hb
      rw [List.map_map] at ha
      obtain ⟨⟨ql, qi⟩, hq, h2⟩ := List.mem_map.1 ha
      obtain ⟨⟨rl, ri⟩, hr, h4⟩ := List.mem_map.1 hb
      obtain ⟨name', nl', h5, _, h7⟩ := collectNC_shape rest rl ri hr
      rw [h5] at h4
      rw [← h4] at h2
      simp only [Function.comp_apply] at h2
      injection h2 with h8 _
      exact hnmem (h8 ▸ h7)
end

theorem collectT_paths_nodup (t : MTree) (ht : WfT t = true) :
    ((collectT t "").map (fun q => q.2)).Nodup := by
  rw [collectT_eq_N, List.map_map]
  have hcomp : ((fun q : ParamId × String => q.2) ∘
      (fun q : List String × ParamId => (q.2, joinUnder "" q.1))) =
      (fun nl : List String => joinUnder "" nl) ∘
        (fun q : List String × ParamId => q.1) := rfl
  rw [hcomp, ← List.map_map]
  apply List.Nodup.map_on ?_ (collectNT_nodup t ht)
  intro x hx y hy hxy
  obtain ⟨⟨xl, xi⟩, hxq, hx2⟩ := List.mem_map.1 hx
  obtain ⟨⟨yl, yi⟩, hyq, hy2⟩ := List.mem_map.1 hy
  have hxr : splitDots (joinUnder "" x) = x := by
    rw [← hx2]
    exact splitDots_joinUnder_root xl (collectNT_ne_nil t xl xi hxq)
      (collectNT_good t ht xl xi hxq)
  have hyr : splitDots (joinUnder "" y) = y := by
    rw [← hy2]
    exact splitDots_joinUnder_root yl (collectNT_ne_nil t yl yi hyq)
      (collectNT_good t ht yl yi hyq)
  rw [← hxr, ← hyr, hxy]

theorem find_shared_props (t : MTree) (ht : WfT t = true) :
    (∀ g ∈ find_shared_parameters t, g.Nodup) ∧
    List.Pairwise List.Disjoint (find_shared_parameters t) ∧
    (find_shared_parameters t).flatten.Nodup := by
  have hLp : ((collectT t "").map (fun q => q.2)).Nodup := collectT_paths_nodup t ht
  rw [find_shared_eq_specGroups, specTieGroups]
  have hone : ∀ g ∈ (dedupFirst ((collectT t "").map (fun q => q.1))).map
      (fun k => ((collectT t "").filter (fun q => q.1 = k)).map (fun q => q.2)),
      g.Nodup := by
    intro g hg
    obtain ⟨k, _, rfl⟩ := List.mem_map.1 hg
    exact hLp.sublist (List.Sublist.map _ (List.filter_sublist _))
  have hpw : List.Pairwise List.Disjoint
      ((dedupFirst ((collectT t "").map (fun q => q.1))).map
        (fun k => ((collectT t "").filter (fun q => q.1 = k)).map (fun q => q.2))) := by
    rw [List.pairwise_map]
    apply List.Pairwise.imp ?_ (nodup_dedupFirst _)
    intro k k' hkk p hp hp'
    obtain ⟨q, hq, hq2⟩ := List.mem_map.1 hp
    obtain ⟨q', hq', hq2'⟩ := List.mem_map.1 hp'
    rw [List.mem_filter] at hq hq'
    have hqq : q = q' := List.inj_on_of_nodup_map hLp hq.1 hq'.1 (by rw [hq2, hq2'])
    apply hkk
    have h1 : q.1 = k := by simpa using hq.2
    have h2 : q'.1 = k' := by simpa using hq'.2
    rw [← h1, ← h2, hqq]
  refine ⟨?_, ?_, ?_⟩
  · intro g hg
    exact hone g (List.mem_of_mem_filter hg)
  · exact hpw.sublist (List.filter_sublist _)
  · rw [List.nodup_flatten]
    refine ⟨fun g hg => hone g (List.mem_of_mem_filter hg),
      hpw.sublist (List.filter_sublist _)⟩

/-- C9: on a well-formed model the tie-groups are pairwise disjoint and
jointly duplicate-free — no path repeats inside a group, no path occurs in
two groups, and the concatenation of all groups has no duplicate path. -/
theorem find_shared_parameters_groups_disjoint (t : MTree) (ht : WfT t = true) :
    (∀ g ∈ find_shared_parameters t, g.Nodup) ∧
    List.Pairwise List.Disjoint (find_shared_parameters t) ∧
    (find_shared_parameters t).flatten.Nodup :=
  find_shared_props t ht

/-- C9 witness: the tie-groups of `exShared` (a well-formed model). -/
theorem find_shared_parameters_groups_disjoint_witness :
    (∀ g ∈ find_shared_parameters exShared, g.Nodup) ∧
    List.Pairwise List.Disjoint (find_shared_parameters exShared) ∧
    (find_shared_parameters exShared).flatten.Nodup :=
  find_shared_parameters_groups_disjoint exShared (by decide)

/-! ### Dict update/lookup interaction. -/

theorem alookup_aset_self {β : Type} (ps : List (String × β)) (n : String)
    (v : β) : alookup (aset ps n v) n = some v := by
  induction ps with
  | nil => simp [aset, alookup]
  | cons q rest ih =>
    obtain ⟨k, w⟩ := q
    by_cases hk : k = n
    · simp [aset, alookup, hk]
    · simp [aset, alookup, hk, ih]

theorem alookup_aset_other {β : Type} (ps : List (String × β)) (n m : String)
    (v : β) (h : m ≠ n) : alookup (aset ps n v) m = alookup ps m := by
  have h' : n ≠ m := Ne.symm h
  induction ps with
  | nil => simp [aset, alookup, h']
  | cons q rest ih =>
    obtain ⟨k, w⟩ := q
    by_cases hk : k = n
    · subst hk
      simp [aset, alookup, h']
    · simp [aset, alookup, hk, ih]

theorem clookup_cerase_other (cs : Children) (n m : String) (h : m ≠ n) :
    clookup (cerase cs n) m = clookup cs m :=
  match cs with
  | .nil => rfl
  | .consNone k rest => by
    have h' : n ≠ m := Ne.symm h
    by_cases hk : k = n
    · subst hk
      simp [cerase, clookup, h']
    · simp [cerase, clookup, hk, clookup_cerase_other rest n m h]
  | .consSome k c rest => by
    have h' : n ≠ m := Ne.symm h
    by_cases hk : k = n
    · subst hk
      simp [cerase, clookup, h']
    · simp [cerase, clookup, hk, clookup_cerase_other rest n m h]

theorem clookup_cset_self (cs : Children) (n : String) (c : MTree) :
    clookup (cset cs n c) n = some (some c) :=
  match cs with
  | .nil => by simp [cset, clookup]
  | .consNone k rest => by
    by_cases hk : k = n
    · simp [cset, clookup, hk]
    · simp [cset, clookup, hk, clookup_cset_self rest n c]
  | .consSome k m rest => by
    by_cases hk : k = n
    · simp [cset, clookup, hk]
    · simp [cset, clookup, hk, clookup_cset_self rest n c]

theorem clookup_cset_other (cs : Children) (n m : String) (c : MTree)
    (h : m ≠ n) : clookup (cset cs n c) m = clookup cs m :=
  match cs with
  | .nil => by
    have h' : n ≠ m := Ne.symm h
    simp [cset, clookup, h']
  | .consNone k rest => by
    have h' : n ≠ m := Ne.symm h
    by_cases hk : k = n
    · subst hk
      simp [cset, clookup, h']
    · simp [cset, clookup, hk, clookup_cset_other rest n m c h]
  | .consSome k c0 rest => by
    have h' : n ≠ m := Ne.symm h
    by_cases hk : k = n
    · subst hk
      simp [cset, clookup, h']
    · simp [cset, clookup, hk, clookup_cset_other rest n m c h]

/-! ### `mtGetattr` inversion and update lemmas. -/

theorem mtGetattr_par_inv (ps : List (String × Option ParamId)) (cs : Children)
    (n : String) (i : ParamId)
    (h : mtGetattr (.node ps cs) n = .ok (.par i)) :
    alookup ps n = some (some i) := by
  rw [mtGetattr] at h
  cases ha : alookup ps n with
  | some o =>
    rw [ha] at h
    cases o with
    | some j =>
      injection h with h
      injection h with h
      rw [h]
    | none => simp at h
  | none =>
    rw [ha] at h
    cases hcq : clookup cs n with
    | some o =>
      rw [hcq] at h
      cases o <;> simp at h
    | none =>
      rw [hcq] at h
      simp at h

theorem mtGetattr_mod_inv (ps : List (String × Option ParamId)) (cs : Children)
    (n : String) (child : MTree)
    (h : mtGetattr (.node ps cs) n = .ok (.mod child)) :
    alookup ps n = Option.none ∧ clookup cs n = some (some child) := by
  rw [mtGetattr] at h
  cases ha : alookup ps n with
  | some o =>
    rw [ha] at h
    cases o <;> simp at h
  | none =>
    rw [ha] at h
    cases hcq : clookup cs n with
    | some o =>
      rw [hcq] at h
      cases o with
      | some m =>
        injection h with h
        injection h with h
        exact ⟨rfl, by rw [h]⟩
      | none => simp at h
    | none =>
      rw [hcq] at h
      simp at h

/-- `getattr` after a parameter write at the written name. -/
theorem mtGetattr_setattr_par_self (t : MTree) (n : String) (i : ParamId) :
    mtGetattr (mtSetattr t n (.par i)) n = .ok (.par i) := by
  cases t with
  | node ps cs =>
    rw [mtSetattr, mtGetattr, alookup_aset_self]

/-- `getattr` at another name after a parameter write. -/
theorem mtGetattr_setattr_par_other (t : MTree) (n m : String) (i : ParamId)
    (h : m ≠ n) :
    mtGetattr (mtSetattr t n (.par i)) m = mtGetattr t m := by
  cases t with
  | node ps cs =>
    rw [mtSetattr, mtGetattr, mtGetattr,
      alookup_aset_other ps n m (some i) h, clookup_cerase_other cs n m h]

/-! ### Resolution along paths: prefixes, writes, frames. -/

/-- A path that resolves to a parameter has no resolving proper extension:
parameters are leaves. -/
theorem getValPath_par_append (p : List String) :
    ∀ (v : PyVal) (r : List String) (a : ParamId) (w : PyVal),
    getValPath v p = .ok (.par a) → getValPath v (p ++ r) = .ok w →
    r = [] := by
  induction p with
  | nil =>
    intro v r a w h h2
    simp only [getValPath] at h
    injection h with h
    subst h
    cases r with
    | nil => rfl
    | cons x xs =>
      rw [List.nil_append] at h2
      simp only [getValPath] at h2
      exact absurd h2 (by simp)
  | cons n p' ih =>
    intro v r a w h h2
    cases v with
    | mod t =>
      rw [List.cons_append] at h2
      simp only [getValPath] at h h2
      cases hg : mtGetattr t n with
      | error e =>
        rw [hg] at h
        exact absurd h (by simp)
      | ok v' =>
        rw [hg] at h h2
        exact ih v' r a w h h2
    | par i => simp only [getValPath] at h; exact absurd h (by simp)
    | none => simp only [getValPath] at h; exact absurd h (by simp)

/-- Two distinct paths that both resolve to parameters are prefix-free. -/
theorem param_paths_not_prefix (t : MTree) (p q : List String) (a b : ParamId)
    (hp : getValPath (.mod t) p = .ok (.par a))
    (hq : getValPath (.mod t) q = .ok (.par b)) (hne : p ≠ q) :
    (∀ r, p ++ r ≠ q) ∧ (∀ r, q ++ r ≠ p) := by
  constructor
  · intro r hr
    have := getValPath_par_append p (.mod t) r a (.par b) hp (by rw [hr]; exact hq)
    subst this
    exact hne (by simpa using hr)
  · intro r hr
    have := getValPath_par_append q (.mod t) r b (.par a) hq (by rw [hr]; exact hp)
    subst this
    exact hne (by simpa using hr.symm)

/-- Rebuilding the characters of a split: `splitDots` loses nothing. -/
def joinBack : List (List Char) → List Char
  | [] => []
  | [x] => x
  | x :: y :: t => x ++ '.' :: joinBack (y :: t)

theorem joinBack_splitDotsAux (l : List Char) :
    joinBack (splitDotsAux l) = l := by
  induction l with
  | nil => rfl
  | cons c rest ih =>
    rw [splitDotsAux]
    by_cases hc : c = '.'
    · rw [if_pos hc]
      cases h : splitDotsAux rest with
      | nil => exact absurd h (splitDotsAux_ne_nil rest)
      | cons a b =>
        have hjb : joinBack ([] :: a :: b) = [] ++ '.' :: joinBack (a :: b) := rfl
        rw [hjb, ← h, ih, hc]
        rfl
    · rw [if_neg hc]
      cases h : splitDotsAux rest with
      | nil => exact absurd h (splitDotsAux_ne_nil rest)
      | cons a b =>
        cases b with
        | nil =>
          rw [joinBack]
          have : joinBack [a] = a := rfl
          rw [h] at ih
          rw [this] at ih
          rw [ih]
        | cons a2 b2 =>
          rw [joinBack]
          rw [h] at ih
          rw [joinBack] at ih
          rw [List.cons_append, ih]

theorem splitDots_inj (p q : String) (h : splitDots p = splitDots q) : p = q := by
  have hdata : splitDotsAux p.data = splitDotsAux q.data := by
    have hm := congrArg (List.map String.data) h
    simpa [splitDots, List.map_map, Function.comp_def] using hm
  apply String.ext
  rw [← joinBack_splitDotsAux p.data, ← joinBack_splitDotsAux q.data, hdata]

/-- Writing along a path that resolves to a parameter succeeds. -/
theorem setPathCore_ok_of_get (p : List String) :
    ∀ (t : MTree) (a : ParamId) (v : PyVal),
    getValPath (.mod t) p = .ok (.par a) →
    ∃ t', setPathCore t p v = .ok t' := by
  induction p with
  | nil =>
    intro t a v h
    simp only [getValPath] at h
    exact absurd h (by simp)
  | cons n p' ih =>
    intro t a v h
    cases p' with
    | nil =>
      refine ⟨mtSetattr t n v, ?_⟩
      simp only [setPathCore]
    | cons n2 p'' =>
      cases t with
      | node ps cs =>
        simp only [getValPath] at h
        cases hg : mtGetattr (.node ps cs) n with
        | error e => simp [hg] at h
        | ok v' =>
          cases v' with
          | mod child =>
            simp only [hg] at h
            obtain ⟨c', hc'⟩ := ih child a v h
            refine ⟨.node ps (cset cs n c'), ?_⟩
            simp only [setPathCore, hg, hc']
          | par j => simp [hg, getValPath] at h
          | none => simp [hg, getValPath] at h

/-- After a parameter write along a parameter path, the path resolves to the
written parameter. -/
theorem getValPath_setPathCore_self (p : List String) :
    ∀ (t t' : MTree) (a i : ParamId),
    getValPath (.mod t) p = .ok (.par a) →
    setPathCore t p (.par i) = .ok t' →
    getValPath (.mod t') p = .ok (.par i) := by
  induction p with
  | nil =>
    intro t t' a i h hs
    simp only [setPathCore] at hs
    exact absurd hs (by simp)
  | cons n p' ih =>
    intro t t' a i h hs
    cases p' with
    | nil =>
      simp only [setPathCore] at hs
      injection hs with hs
      subst hs
      simp only [getValPath, mtGetattr_setattr_par_self]
    | cons n2 p'' =>
      cases t with
      | node ps cs =>
        simp only [getValPath] at h
        simp only [setPathCore] at hs
        cases hg : mtGetattr (.node ps cs) n with
        | error e => simp [hg] at h
        | ok v' =>
          cases v' with
          | mod child =>
            simp only [hg] at h hs
            cases hrec : setPathCore child (n2 :: p'') (.par i) with
            | error e => simp [hrec] at hs
            | ok child' =>
              simp only [hrec] at hs
              injection hs with hs
              subst hs
              obtain ⟨hpn, _⟩ := mtGetattr_mod_inv ps cs n child hg
              have hg' : mtGetattr (.node ps (cset cs n child')) n =
                  .ok (.mod child') := by
                simp only [mtGetattr, hpn, clookup_cset_self]
              simp only [getValPath, hg']
              exact ih child child' a i h hrec
          | par j => simp [hg, getValPath] at h
          | none => simp [hg, getValPath] at h

/-- A parameter write along one parameter path leaves resolution along any
other path unchanged, provided neither path extends the other. -/
theorem getValPath_setPathCore_frame (p : List String) :
    ∀ (t t' : MTree) (q : List String) (i b : ParamId) (w : PyVal),
    getValPath (.mod t) p = .ok (.par b) →
    setPathCore t p (.par i) = .ok t' →
    getValPath (.mod t) q = .ok w →
    (∀ r, p ++ r ≠ q) → (∀ r, q ++ r ≠ p) →
    getValPath (.mod t') q = .ok w := by
  induction p with
  | nil =>
    intro t t' q i b w hp hs hq hpq hqp
    simp only [setPathCore] at hs
    exact absurd hs (by simp)
  | cons n p' ih =>
    intro t t' q i b w hp hs hq hpq hqp
    cases q with
    | nil => exact absurd (by simp) (hqp (n :: p'))
    | cons m q' =>
      cases t with
      | node ps cs =>
        cases p' with
        | nil =>
          simp only [setPathCore] at hs
          injection hs with hs
          subst hs
          by_cases hmn : m = n
          · subst hmn
            simp only [getValPath] at hp hq
            cases hg : mtGetattr (.node ps cs) m with
            | error e => simp [hg] at hp
            | ok v =>
              simp only [hg] at hp hq
              cases q' with
              | nil => exact absurd (by simp) (hpq [])
              | cons m2 q'' =>
                injection hp with hp
                subst hp
                simp [getValPath] at hq
          · simp only [getValPath] at hq ⊢
            rw [mtGetattr_setattr_par_other _ n m i hmn]
            exact hq
        | cons n2 p'' =>
          simp only [setPathCore] at hs
          simp only [getValPath] at hp
          cases hg : mtGetattr (.node ps cs) n with
          | error e => simp [hg] at hp
          | ok v0 =>
            cases v0 with
            | par j => simp [hg, getValPath] at hp
            | none => simp [hg, getValPath] at hp
            | mod child =>
              simp only [hg] at hp hs
              cases hrec : setPathCore child (n2 :: p'') (.par i) with
              | error e => simp [hrec] at hs
              | ok child' =>
                simp only [hrec] at hs
                injection hs with hs
                subst hs
                obtain ⟨hpn, hcl⟩ := mtGetattr_mod_inv ps cs n child hg
                by_cases hmn : m = n
                · subst hmn
                  simp only [getValPath] at hq ⊢
                  simp only [hg] at hq
                  have hg' : mtGetattr (.node ps (cset cs m child')) m =
                      .ok (.mod child') := by
                    simp only [mtGetattr, hpn, clookup_cset_self]
                  simp only [hg']
                  refine ih child child' q' i b w hp hrec hq ?_ ?_
                  · intro r hr
                    exact hpq r (by rw [List.cons_append, hr])
                  · intro r hr
                    exact hqp r (by rw [List.cons_append, hr])
                · simp only [getValPath] at hq ⊢
                  have hgq : mtGetattr (.node ps (cset cs n child')) m =
                      mtGetattr (.node ps cs) m := by
                    simp only [mtGetattr, clookup_cset_other cs n m child' hmn]
                  rw [hgq]
                  exact hq

/-! ### The rebinding loops: success, effect, and frame. -/

/-- The inner write loop of `apply_weight_tying`, on a group of parameter
paths: it succeeds, every written path then resolves to the written
parameter, and every other parameter path keeps its object. -/
theorem setGroup_props (tl : List String) :
    ∀ (t : MTree) (i : ParamId),
    (∀ p ∈ tl, ∃ a, _get_module_by_path t p = .ok (.par a)) →
    tl.Nodup →
    ∃ t', setGroup t tl (.par i) = .ok t' ∧
      (∀ p ∈ tl, _get_module_by_path t' p = .ok (.par i)) ∧
      (∀ q a, _get_module_by_path t q = .ok (.par a) → q ∉ tl →
        _get_module_by_path t' q = .ok (.par a)) := by
  induction tl with
  | nil =>
    intro t i _ _
    exact ⟨t, rfl, by simp, fun q a hq _ => hq⟩
  | cons p tl' ih =>
    intro t i hres hnd
    rw [List.nodup_cons] at hnd
    obtain ⟨a0, ha0⟩ := hres p (by simp)
    obtain ⟨t1, ht1⟩ := setPathCore_ok_of_get (splitDots p) t a0 (.par i) ha0
    have hset : _set_module_by_path t p (.par i) = .ok t1 := ht1
    have hself : _get_module_by_path t1 p = .ok (.par i) :=
      getValPath_setPathCore_self (splitDots p) t t1 a0 i ha0 ht1
    have hframe1 : ∀ q a, _get_module_by_path t q = .ok (.par a) → q ≠ p →
        _get_module_by_path t1 q = .ok (.par a) := by
      intro q a hq hqp
      have hnlne : splitDots p ≠ splitDots q := fun h =>
        hqp (splitDots_inj q p h.symm)
      obtain ⟨hnp1, hnp2⟩ := param_paths_not_prefix t (splitDots p) (splitDots q)
        a0 a ha0 hq hnlne
      exact getValPath_setPathCore_frame (splitDots p) t t1 (splitDots q) i a0
        (.par a) ha0 ht1 hq hnp1 hnp2
    have hres' : ∀ p' ∈ tl', ∃ a, _get_module_by_path t1 p' = .ok (.par a) := by
      intro p' hp'
      obtain ⟨a, ha⟩ := hres p' (List.mem_cons_of_mem _ hp')
      by_cases hpe : p' = p
      · exact absurd (hpe ▸ hp') hnd.1
      · exact ⟨a, hframe1 p' a ha hpe⟩
    obtain ⟨t', hsg, hall, hframe2⟩ := ih t1 i hres' hnd.2
    refine ⟨t', ?_, ?_, ?_⟩
    · simp only [setGroup, hset, hsg]
    · intro p' hp'
      rcases List.mem_cons.1 hp' with h1 | h1
      · subst h1
        exact hframe2 p' i hself hnd.1
      · exact hall p' h1
    · intro q a hq hqtl
      simp only [List.mem_cons] at hqtl
      push_neg at hqtl
      exact hframe2 q a (hframe1 q a hq hqtl.1) hqtl.2

/-- `apply_weight_tying` on groups of resolvable, pairwise-distinct parameter
paths: it succeeds; parameter paths outside all group tails keep their
object; and each group ends up entirely bound to the object its first path
resolved to before any rebinding. -/
theorem apply_props (gs : List (List String)) :
    ∀ (t : MTree),
    (∀ g ∈ gs, ∀ p ∈ g, ∃ a, _get_module_by_path t p = .ok (.par a)) →
    gs.flatten.Nodup →
    (∀ g ∈ gs, g ≠ []) →
    ∃ tres, apply_weight_tying t gs = .ok tres ∧
      (∀ q a, _get_module_by_path t q = .ok (.par a) →
        (∀ g ∈ gs, ∀ p ∈ g.tail, p ≠ q) →
        _get_module_by_path tres q = .ok (.par a)) ∧
      (∀ g ∈ gs, ∀ hd tl, g = hd :: tl →
        ∃ aref, _get_module_by_path t hd = .ok (.par aref) ∧
          ∀ p ∈ g, _get_module_by_path tres p = .ok (.par aref)) := by
  induction gs with
  | nil =>
    intro t _ _ _
    exact ⟨t, rfl, fun q a hq _ => hq, by simp⟩
  | cons g rest ih =>
    intro t hres hnd hne
    obtain ⟨hd, tl, rfl⟩ : ∃ hd tl, g = hd :: tl := by
      cases g with
      | nil => exact absurd rfl (hne [] (by simp))
      | cons x xs => exact ⟨x, xs, rfl⟩
    rw [List.flatten_cons, List.nodup_append] at hnd
    obtain ⟨hgnd, hrnd, hdisj⟩ := hnd
    rw [List.nodup_cons] at hgnd
    obtain ⟨aref, haref⟩ := hres (hd :: tl) (by simp) hd (by simp)
    obtain ⟨t1, hsg, hall1, hframe1⟩ := setGroup_props tl t aref
      (fun p hp => hres (hd :: tl) (by simp) p (List.mem_cons_of_mem _ hp)) hgnd.2
    have h_hd_t1 : _get_module_by_path t1 hd = .ok (.par aref) :=
      hframe1 hd aref haref hgnd.1
    have hres' : ∀ g' ∈ rest, ∀ p ∈ g', ∃ a,
        _get_module_by_path t1 p = .ok (.par a) := by
      intro g' hg' p hp
      obtain ⟨a, ha⟩ := hres g' (by simp [hg']) p hp
      refine ⟨a, hframe1 p a ha ?_⟩
      intro hptl
      exact hdisj (List.mem_cons_of_mem _ hptl)
        (List.mem_flatten.2 ⟨g', hg', hp⟩)
    obtain ⟨tres, happ, hframeR, hgroupsR⟩ :=
      ih t1 hres' hrnd (fun g' h => hne g' (by simp [h]))
    refine ⟨tres, ?_, ?_, ?_⟩
    · simp only [apply_weight_tying, haref, hsg, happ]
    · intro q a hq havoid
      have hq1 : _get_module_by_path t1 q = .ok (.par a) :=
        hframe1 q a hq (fun hqtl => havoid (hd :: tl) (by simp) q hqtl rfl)
      exact hframeR q a hq1 (fun g' hg' p hp => havoid g' (by simp [hg']) p hp)
    · intro g' hg' hd' tl' hgeq
      rcases List.mem_cons.1 hg' with h1 | h1
      · subst h1
        injection hgeq with he1 he2
        subst he1
        subst he2
        refine ⟨aref, haref, ?_⟩
        intro p hp
        have hp1 : _get_module_by_path t1 p = .ok (.par aref) := by
          rcases List.mem_cons.1 hp with h2 | h2
          · subst h2
            exact h_hd_t1
          · exact hall1 p h2
        refine hframeR p aref hp1 ?_
        intro g2 hg2 p2 hp2 hpe
        subst hpe
        exact hdisj hp
          (List.mem_flatten.2 ⟨g2, hg2, List.mem_of_mem_tail hp2⟩)
      · obtain ⟨aref', h1', h2'⟩ := hgroupsR g' h1 hd' tl' hgeq
        obtain ⟨b, hb⟩ := hres g' (by simp [h1]) hd' (hgeq ▸ List.mem_cons_self _ _)
        have hbt1 : _get_module_by_path t1 hd' = .ok (.par b) := by
          refine hframe1 hd' b hb ?_
          intro hptl
          exact hdisj (List.mem_cons_of_mem _ hptl)
            (List.mem_flatten.2 ⟨g', h1, hgeq ▸ List.mem_cons_self _ _⟩)
        rw [h1'] at hbt1
        injection hbt1 with hbt1
        injection hbt1 with hbt1
        exact ⟨aref', by rw [hb, hbt1], h2'⟩

/-! ### Group paths resolve on the walked tree and on any same-shaped tree. -/

theorem group_paths_resolve (t : MTree) (ht : WfT t = true) :
    ∀ g ∈ find_shared_parameters t, ∀ p ∈ g,
      ∃ a, _get_module_by_path t p = .ok (.par a) := by
  intro g hg p hp
  rw [find_shared_eq_specGroups, specTieGroups] at hg
  have hg2 := List.mem_of_mem_filter hg
  obtain ⟨k, _, rfl⟩ := List.mem_map.1 hg2
  obtain ⟨q, hq, hq2⟩ := List.mem_map.1 hp
  rw [List.mem_filter] at hq
  have hqL : q ∈ collectT t "" := hq.1
  rw [collectT_eq_N] at hqL
  obtain ⟨⟨nl, a⟩, hnl, hnl2⟩ := List.mem_map.1 hqL
  have hget : getValPath (.mod t) nl = .ok (.par a) :=
    getValPath_collectNT t ht nl a hnl
  have hsplit : splitDots (joinUnder "" nl) = nl :=
    splitDots_joinUnder_root nl (collectNT_ne_nil t nl a hnl)
      (collectNT_good t ht nl a hnl)
  refine ⟨a, ?_⟩
  rw [← hq2, ← hnl2]
  show getValPath (.mod t) (splitDots (joinUnder "" nl)) = .ok (.par a)
  rw [hsplit]
  exact hget

theorem find_shared_groups_ne_nil (t : MTree) :
    ∀ g ∈ find_shared_parameters t, g ≠ [] := by
  intro g hg
  rw [find_shared_parameters] at hg
  obtain ⟨kv, hkv, rfl⟩ := List.mem_map.1 hg
  rw [List.mem_filter] at hkv
  have := hkv.2
  simp only [decide_eq_true_eq] at this
  intro he
  rw [he] at this
  simp at this

/-! ### Shape stability transfers parameter-path resolution. -/

theorem sameShapeP_none (ps ps' : List (String × Option ParamId))
    (hsh : sameShapeP ps ps' = true) (n : String)
    (h : alookup ps n = Option.none) : alookup ps' n = Option.none := by
  induction ps generalizing ps' with
  | nil =>
    cases ps' with
    | nil => rfl
    | cons q' rest' => simp [sameShapeP] at hsh
  | cons q rest ih =>
    cases ps' with
    | nil => simp [sameShapeP] at hsh
    | cons q' rest' =>
      obtain ⟨k, o⟩ := q
      obtain ⟨k', o'⟩ := q'
      simp only [sameShapeP, Bool.and_eq_true, beq_iff_eq] at hsh
      obtain ⟨⟨hk, _⟩, hrest⟩ := hsh
      subst hk
      rw [alookup] at h ⊢
      by_cases hkn : k = n
      · rw [if_pos hkn] at h
        simp at h
      · rw [if_neg hkn] at h ⊢
        exact ih rest' hrest h

theorem sameShapeP_some (ps ps' : List (String × Option ParamId))
    (hsh : sameShapeP ps ps' = true) (n : String) (o : Option ParamId)
    (h : alookup ps n = some o) :
    ∃ o', alookup ps' n = some o' ∧ o.isSome = o'.isSome := by
  induction ps generalizing ps' with
  | nil => simp [alookup] at h
  | cons q rest ih =>
    cases ps' with
    | nil => simp [sameShapeP] at hsh
    | cons q' rest' =>
      obtain ⟨k, w⟩ := q
      obtain ⟨k', w'⟩ := q'
      simp only [sameShapeP, Bool.and_eq_true, beq_iff_eq] at hsh
      obtain ⟨⟨hk, hw⟩, hrest⟩ := hsh
      subst hk
      rw [alookup] at h ⊢
      by_cases hkn : k = n
      · rw [if_pos hkn] at h ⊢
        injection h with h
        subst h
        exact ⟨w', rfl, hw⟩
      · rw [if_neg hkn] at h ⊢
        exact ih rest' hrest h

theorem sameShapeC_some (cs : Children) :
    ∀ (cs' : Children), sameShapeC cs cs' = true → ∀ (n : String) (m : MTree),
    clookup cs n = some (some m) →
    ∃ m', clookup cs' n = some (some m') ∧ sameShapeT m m' = true :=
  match cs with
  | .nil => by
    intro cs' hsh n m h
    simp [clookup] at h
  | .consNone k rest => by
    intro cs' hsh n m h
    cases cs' with
    | nil => simp [sameShapeC] at hsh
    | consNone k' rest' =>
      simp only [sameShapeC, Bool.and_eq_true, beq_iff_eq] at hsh
      obtain ⟨hk, hrest⟩ := hsh
      subst hk
      rw [clookup] at h ⊢
      by_cases hkn : k = n
      · rw [if_pos hkn] at h
        simp at h
      · rw [if_neg hkn] at h ⊢
        exact sameShapeC_some rest rest' hrest n m h
    | consSome k' m' rest' => simp [sameShapeC] at hsh
  | .consSome k c rest => by
    intro cs' hsh n m h
    cases cs' with
    | nil => simp [sameShapeC] at hsh
    | consNone k' rest' => simp [sameShapeC] at hsh
    | consSome k' c' rest' =>
      simp only [sameShapeC, Bool.and_eq_true, beq_iff_eq] at hsh
      obtain ⟨⟨hk, hcc⟩, hrest⟩ := hsh
      subst hk
      rw [clookup] at h ⊢
      by_cases hkn : k = n
      · rw [if_pos hkn] at h ⊢
        injection h with h
        injection h with h
        subst h
        exact ⟨c', rfl, hcc⟩
      · rw [if_neg hkn] at h ⊢
        exact sameShapeC_some rest rest' hrest n m h

/-- A parameter path of the pre-move tree resolves to a (possibly fresh)
parameter on any same-shaped post-move tree. -/
theorem getValPath_sameShape (nl : List String) :
    ∀ (t t' : MTree) (i : ParamId), sameShapeT t t' = true →
    getValPath (.mod t) nl = .ok (.par i) →
    ∃ i', getValPath (.mod t') nl = .ok (.par i') := by
  induction nl with
  | nil =>
    intro t t' i _ h
    simp only [getValPath] at h
    exact absurd h (by simp)
  | cons n rest ih =>
    intro t t' i hsh h
    cases t with
    | node ps cs =>
      cases t' with
      | node ps' cs' =>
        simp only [sameShapeT, Bool.and_eq_true] at hsh
        obtain ⟨hshp, hshc⟩ := hsh
        simp only [getValPath] at h
        cases hg : mtGetattr (.node ps cs) n with
        | error e => simp [hg] at h
        | ok v =>
          cases v with
          | par j =>
            simp only [hg] at h
            cases rest with
            | nil =>
              have hpl := mtGetattr_par_inv ps cs n j hg
              obtain ⟨o', ho', hos⟩ := sameShapeP_some ps ps' hshp n (some j) hpl
              cases o' with
              | none => simp at hos
              | some j' =>
                refine ⟨j', ?_⟩
                simp only [getValPath, mtGetattr, ho']
            | cons r1 r2 => simp [getValPath] at h
          | none =>
            simp only [hg] at h
            cases rest with
            | nil => simp [getValPath] at h
            | cons r1 r2 => simp [getValPath] at h
          | mod child =>
            simp only [hg] at h
            obtain ⟨hpn, hcl⟩ := mtGetattr_mod_inv ps cs n child hg
            obtain ⟨child', hcl', hshcc⟩ := sameShapeC_some cs cs' hshc n child hcl
            have hpn' : alookup ps' n = Option.none := sameShapeP_none ps ps' hshp n hpn
            obtain ⟨i', hi'⟩ := ih child child' i hshcc h
            refine ⟨i', ?_⟩
            have hg' : mtGetattr (.node ps' cs') n = .ok (.mod child') := by
              simp only [mtGetattr, hpn', hcl']
            simp only [getValPath, hg']
            exact hi'

/-- C1: for every well-formed model whose tree shape is stable across the
move, the callable produced by `auto_weight_tying` restores every pre-move
tie-group: all paths of the group resolve to one identical parameter
object, namely the (possibly new) post-move object resolved from the
group's first path — even when the move replaced every parameter object
with a fresh distinct copy. -/
theorem auto_weight_tying_restores_ties {R : Type}
    (mtd : MTree → Except PyErr (MTree × R)) (t t' : MTree) (r : R)
    (ht : WfT t = true) (hsh : sameShapeT t t' = true)
    (hmove : mtd t = .ok (t', r)) :
    ∃ tres, auto_weight_tying mtd t = .ok (tres, tres) ∧
      ∀ g ∈ find_shared_parameters t, ∀ hd tl, g = hd :: tl →
        ∃ aref, _get_module_by_path t' hd = .ok (.par aref) ∧
          ∀ p ∈ g, _get_module_by_path tres p = .ok (.par aref) := by
  have hres' : ∀ g ∈ find_shared_parameters t, ∀ p ∈ g,
      ∃ a, _get_module_by_path t' p = .ok (.par a) := by
    intro g hg p hp
    obtain ⟨a, ha⟩ := group_paths_resolve t ht g hg p hp
    exact getValPath_sameShape (splitDots p) t t' a hsh ha
  obtain ⟨tres, happ, _, hgroups⟩ := apply_props (find_shared_parameters t) t'
    hres' (find_shared_props t ht).2.2 (find_shared_groups_ne_nil t)
  refine ⟨tres, ?_, hgroups⟩
  simp only [auto_weight_tying, hmove, happ]

/-- C1 witness: `exShared` ties `a.weight` and `c.weight` to object 7; the
move replaces every parameter with a fresh object (21, 22, 23); after the
wrapper, both group paths resolve to 21, the post-move object of the first
path `a.weight`. -/
theorem auto_weight_tying_restores_ties_witness :
    ∃ tres, auto_weight_tying exMove exShared = .ok (tres, tres) ∧
      ∀ g ∈ find_shared_parameters exShared, ∀ hd tl, g = hd :: tl →
        ∃ aref, _get_module_by_path exSharedMoved hd = .ok (.par aref) ∧
          ∀ p ∈ g, _get_module_by_path tres p = .ok (.par aref) :=
  auto_weight_tying_restores_ties exMove exShared exSharedMoved 5
    (by decide) (by decide) rfl

/-- C10: `apply_weight_tying` returns the threaded module (the in-place
mutation of its argument); it never writes the slot at a group's first path
(that slot keeps the object the input held), and every parameter slot not
listed after position one in some group still holds exactly the object the
input tree had there. -/
theorem apply_weight_tying_frame (t : MTree) (gs : List (List String))
    (hres : ∀ g ∈ gs, ∀ p ∈ g, ∃ a, _get_module_by_path t p = .ok (.par a))
    (hnd : gs.flatten.Nodup) (hne : ∀ g ∈ gs, g ≠ []) :
    ∃ tres, apply_weight_tying t gs = .ok tres ∧
      (∀ q a, _get_module_by_path t q = .ok (.par a) →
        (∀ g ∈ gs, ∀ p ∈ g.tail, p ≠ q) →
        _get_module_by_path tres q = .ok (.par a)) ∧
      (∀ g ∈ gs, ∀ hd tl, g = hd :: tl → ∀ a,
        _get_module_by_path t hd = .ok (.par a) →
        _get_module_by_path tres hd = .ok (.par a)) := by
  obtain ⟨tres, h1, h2, _⟩ := apply_props gs t hres hnd hne
  refine ⟨tres, h1, h2, ?_⟩
  intro g hg hd tl hgeq a ha
  refine h2 hd a ha ?_
  intro g2 hg2 p2 hp2 hpe
  subst hpe
  rw [List.nodup_flatten] at hnd
  obtain ⟨hnodups, hpwd⟩ := hnd
  by_cases hgg : g = g2
  · subst hgg
    have hgnd := hnodups g hg
    rw [hgeq] at hgnd hp2
    rw [List.nodup_cons] at hgnd
    exact hgnd.1 (by simpa using hp2)
  · have hdisj := List.Pairwise.forall
      (fun l1 l2 h => List.disjoint_symm h) hpwd hg hg2 hgg
    exact hdisj (hgeq ▸ List.mem_cons_self _ _) (List.mem_of_mem_tail hp2)

/-- C10 witness: re-tying `exSharedMoved` along the `exShared` groups; both
frame clauses instantiated at that concrete run. -/
theorem apply_weight_tying_frame_witness :
    ∃ tres, apply_weight_tying exSharedMoved [["a.weight", "c.weight"]] = .ok tres ∧
      (∀ q a, _get_module_by_path exSharedMoved q = .ok (.par a) →
        (∀ g ∈ [["a.weight", "c.weight"]], ∀ p ∈ g.tail, p ≠ q) →
        _get_module_by_path tres q = .ok (.par a)) ∧
      (∀ g ∈ [["a.weight", "c.weight"]], ∀ hd tl, g = hd :: tl → ∀ a,
        _get_module_by_path exSharedMoved hd = .ok (.par a) →
        _get_module_by_path tres hd = .ok (.par a)) :=
  apply_weight_tying_frame exSharedMoved [["a.weight", "c.weight"]]
    (by
      intro g hg p hp
      simp only [List.mem_singleton] at hg
      subst hg
      rcases List.mem_cons.1 hp with rfl | hp2
      · exact ⟨21, by decide⟩
      · rcases List.mem_cons.1 hp2 with rfl | hp3
        · exact ⟨23, by decide⟩
        · simp at hp3)
    (by decide) (by decide)

/-- C6 counterexample: `exBroken` ties `a.w` and `b.w`; after the move the
final name `w` no longer exists under `b` (`b.w` does not resolve), yet
rebinding does not raise — the write creates the `b.w` slot and
`apply_weight_tying` returns normally. -/
theorem apply_weight_tying_c6_counterexample :
    find_shared_parameters exBroken = [["a.w", "b.w"]] ∧
    _get_module_by_path exBrokenMoved "b.w" = .error (.attributeError "w") ∧
    apply_weight_tying exBrokenMoved (find_shared_parameters exBroken) =
      .ok (.node [] (.consSome "a" (.node [("w", some 31)] .nil)
        (.consSome "b" (.node [("w", some 31)] .nil) .nil))) := by
  refine ⟨by decide, by decide, by decide⟩

/-- C6 (amended): a lookup failure during rebinding is fatal and propagates
— a group whose first path fails to resolve makes `apply_weight_tying`
return that lookup error, and a failing write (e.g. a missing intermediate
name) likewise aborts the whole call; only a missing final name on a
non-first path does not raise, because the write creates the slot. -/
theorem apply_weight_tying_error_propagation (m : MTree) (p : String)
    (tl : List String) (gs : List (List String)) :
    (∀ e, _get_module_by_path m p = .error e →
      apply_weight_tying m ((p :: tl) :: gs) = .error e) ∧
    (∀ ref e, _get_module_by_path m p = .ok ref →
      setGroup m tl ref = .error e →
      apply_weight_tying m ((p :: tl) :: gs) = .error e) ∧
    (∀ (q : String) (v : PyVal) (e : PyErr) (rest2 : List String),
      _set_module_by_path m q v = .error e →
      setGroup m (q :: rest2) v = .error e) := by
  refine ⟨?_, ?_, ?_⟩
  · intro e he
    simp only [apply_weight_tying, he]
  · intro ref e h1 h2
    simp only [apply_weight_tying, h1, h2]
  · intro q v e rest2 hset
    simp only [setGroup, hset]

/-- C6 (amended) witness: a group whose first path `b.w` has a missing name
on `exBrokenMoved` makes the rebinding fail with that `AttributeError`. -/
theorem apply_weight_tying_error_propagation_witness :
    apply_weight_tying exBrokenMoved (["b.w", "a.w"] :: []) =
      .error (.attributeError "w") :=
  (apply_weight_tying_error_propagation exBrokenMoved "b.w" ["a.w"] []).1
    (.attributeError "w") (by decide)

end PLDecorators
